import Mathlib

/-!
# Verification of the meamer-rs RML-to-algebra translator

Shallow embedding of `src/plangenerator/src/plan.rs` (typed plan builder over a
shared operator graph) and `src/interpreter/src/rmlalgebra.rs` (translation of a
mapping `Document` into an operator plan), together with proofs of the spec
claims about them.

The parts of the repository the translator depends on but whose sources are not
available (the `rml_model` data model with `get_attributes`, `prefix_attributes`
and `contains_ptm`, and the fluent `join` builder of the plan crate) are
modelled from the specification; each such definition carries a doc comment
starting with `Modelled from the spec:`.
-/

section Defs

/-- Data formats of operator configurations (`operator::formats::DataFormat`). -/
inductive DataFormat where
  | NT
  | CSV
  | JSONLD
deriving DecidableEq, Repr

/-- The function tree emitted by the translator (`operator::Function`). -/
inductive Function where
  | Constant (value : String)
  | Reference (value : String)
  | Template (value : String)
  | UriEncode (inner_function : Function)
  | Iri (inner_function : Function)
  | Literal (inner_function : Function)
  | BlankNode (inner_function : Function)
deriving DecidableEq, Repr

/-- The closed operator variant set (`operator::Operator`).  `SourceOp` keeps the
logical-source description as an opaque string; `TargetOp` keeps the `path`
entry of the target configuration and the data format. -/
inductive Operator where
  | SourceOp (config : String)
  | ProjectOp (projection_attributes : List String)
  | ExtendOp (extend_pairs : List (String × Function))
  | RenameOp (rename_pairs : List (String × String))
  | JoinOp (ptm_alias : String) (child_attributes parent_attributes : List String)
  | SerializerOp (template : String) (format : DataFormat)
  | TargetOp (path : String) (format : DataFormat)
deriving DecidableEq, Repr

/-- `plangenerator::error::PlanError` (the variants used by the sources in scope;
`AuxError` carries its message). -/
inductive PlanError where
  | EmptyPlan
  | DanglingApplyOperator (op : Operator)
  | WrongApplyOperator (op : Operator)
  | AuxError (msg : String)
deriving DecidableEq, Repr

/-- A node of the operator graph (`plangenerator::plan::PlanNode`). -/
structure PlanNode where
  id : String
  operator : Operator
deriving DecidableEq, Repr

/-- A labeled edge of the operator graph; `src`/`dst` are node indices in
insertion order (petgraph `NodeIndex`), `key`/`value` the `PlanEdge` labels. -/
structure PEdge where
  src : Nat
  dst : Nat
  key : String
  value : String
deriving DecidableEq, Repr

/-- The shared mutable graph behind all `Plan<T>` handles, made explicit:
node list plus edge list plus the registered source-node indices. -/
structure PGraph where
  nodes : List PlanNode
  edges : List PEdge
  sources : List Nat
deriving DecidableEq, Repr

def PGraph.empty : PGraph := ⟨[], [], []⟩

/-- `Plan<Init>::source`: appends a `Source_<n>` node (`n` = node count), with no
incoming edge, registers it in the source list and returns the new frontier. -/
def plan_source (g : PGraph) (source : String) : PGraph × Nat :=
  let idx := g.nodes.length
  let plan_node : PlanNode := ⟨"Source_" ++ Nat.repr idx, Operator.SourceOp source⟩
  (⟨g.nodes ++ [plan_node], g.edges, g.sources ++ [idx]⟩, idx)

/-- The edge label attached by `apply`/`serialize`
(`std::any::type_name::<()>()` renders as `"()"`). -/
def mappingTupleEdge (src dst : Nat) : PEdge := ⟨src, dst, "()", "MappingTuple"⟩

/-- `Plan<Processed>::apply`: empty-graph check, dangling-frontier check,
reserved-operator check, then appends a `<prefix>_<n>` node and an edge from the
frontier. -/
def plan_apply (g : PGraph) (last_node : Option Nat) (operator : Operator)
    ( node_id_prefix : String) : Except PlanError (PGraph × Nat) :=
  if g.nodes.length = 0 then
    Except.error PlanError.EmptyPlan
  else
    match last_node with
    | none => Except.error (PlanError.DanglingApplyOperator operator)
    | some prev_node_idx =>
      match operator with
      | Operator.SourceOp _ => Except.error (PlanError.WrongApplyOperator operator)
      | Operator.TargetOp _ _ => Except.error (PlanError.WrongApplyOperator operator)
      | Operator.SerializerOp _ _ => Except.error (PlanError.WrongApplyOperator operator)
      | _ =>
        let id_num := g.nodes.length
        let plan_node : PlanNode :=
          ⟨ node_id_prefix ++ "_" ++ Nat.repr id_num, operator⟩
        Except.ok (⟨g.nodes ++ [plan_node],
                    g.edges ++ [mappingTupleEdge prev_node_idx id_num],
                    g.sources⟩, id_num)

/-- `Plan<Processed>::serialize`: empty-graph and dangling checks, then appends a
`Serialize_<n>` node and an edge from the frontier. -/
def plan_serialize (g : PGraph) (last_node : Option Nat) (template : String)
    (format : DataFormat) : Except PlanError (PGraph × Nat) :=
  if g.nodes.length = 0 then
    Except.error PlanError.EmptyPlan
  else
    match last_node with
    | none =>
        Except.error
          (PlanError.DanglingApplyOperator (Operator.SerializerOp template format))
    | some prev_node_idx =>
      let idx := g.nodes.length
      let plan_node : PlanNode :=
        ⟨"Serialize_" ++ Nat.repr idx, Operator.SerializerOp template format⟩
      Except.ok (⟨g.nodes ++ [plan_node],
                  g.edges ++ [mappingTupleEdge prev_node_idx idx],
                  g.sources⟩, idx)

/-- `Plan<Serialized>::sink`: fails with `EmptyPlan` when there is no frontier,
otherwise appends a `Sink_<n>` node and a `"Serialized Format"` edge. -/
def plan_sink (g : PGraph) (last_node : Option Nat) (path : String)
    (format : DataFormat) : Except PlanError (PGraph × Nat) :=
  match last_node with
  | none => Except.error PlanError.EmptyPlan
  | some prev_node_idx =>
    let idx := g.nodes.length
    let plan_node : PlanNode :=
      ⟨"Sink_" ++ Nat.repr idx, Operator.TargetOp path format⟩
    Except.ok (⟨g.nodes ++ [plan_node],
                g.edges ++ [⟨prev_node_idx, idx, "()", "Serialized Format"⟩],
                g.sources⟩, idx)

/-- Modelled from the spec: `Plan<Processed>::join(other).alias(a).where_by(c)
.compared_to(p)` — the fluent join builder is not among the available sources.
Per §4.6 it yields a `Processed` plan whose frontier is the new join node, with
edges from both the current frontier and `other`'s frontier. -/
def plan_join (g : PGraph) (last_node : Nat) (other_frontier : Nat)
    (ptm_alias : String) (child_attributes parent_attributes : List String) :
    PGraph × Nat :=
  let idx := g.nodes.length
  let plan_node : PlanNode :=
    ⟨"Join_" ++ Nat.repr idx,
     Operator.JoinOp ptm_alias child_attributes parent_attributes⟩
  (⟨g.nodes ++ [plan_node],
    g.edges ++ [mappingTupleEdge last_node idx, mappingTupleEdge other_frontier idx],
    g.sources⟩, idx)

/-- RDF term kinds (`sophia_api::term::TermKind`); `Variable` is the kind the
translator does not recognize. -/
inductive TermKind where
  | Iri
  | Literal
  | BlankNode
  | Variable
deriving DecidableEq, Repr

/-- `rml_model::term_map::TermMapType`. -/
inductive TermMapType where
  | Constant
  | Reference
  | Template
deriving DecidableEq, Repr

/-- `rml_model::term_map::TermMapInfo` (the fields used by the translator:
identifier, term-map type, raw term value, optional term type). -/
structure TermMapInfo where
  identifier : String
  term_map_type : TermMapType
  term_value : String
  term_type : Option TermKind
deriving DecidableEq, Repr

/-- Modelled from the spec: the placeholder names inside a template value —
scanning the raw string, a placeholder opens at a brace-open character and
collects every character up to the next brace-close character; an unclosed
trailing placeholder contributes nothing.  (`TermMapInfo::get_attributes` for
`Template` term maps is not among the available sources.)
The first argument is `none` outside a placeholder and `some acc` (collected
characters, reversed) inside one. -/
def templateAttrsAux : Option (List Char) → List Char → List String
  | _, [] => []
  | none, '{' :: rest => templateAttrsAux (some []) rest
  | none, _ :: rest => templateAttrsAux none rest
  | some acc, '}' :: rest => String.mk acc.reverse :: templateAttrsAux none rest
  | some acc, c :: rest => templateAttrsAux (some (c :: acc)) rest

/-- Modelled from the spec: `TermMapInfo::get_attributes` — the attributes
referenced by a term map are the placeholder names when the type is `Template`,
the whole raw value when the type is `Reference`, and none when `Constant`. -/
def TermMapInfo.get_attributes (t : TermMapInfo) : List String :=
  match t.term_map_type with
  | TermMapType.Constant => []
  | TermMapType.Reference => [t.term_value]
  | TermMapType.Template => templateAttrsAux none t.term_value.data

/-- Modelled from the spec: rewriting of a template value so that every
placeholder name is prefixed with `al` and an underscore; characters outside
placeholders are kept.  Used by `prefix_attributes`. -/
def prefixTemplateAux (al : String) : Bool → List Char → List Char
  | _, [] => []
  | false, '{' :: rest => '{' :: (al.data ++ '_' :: prefixTemplateAux al true rest)
  | false, c :: rest => c :: prefixTemplateAux al false rest
  | true, '}' :: rest => '}' :: prefixTemplateAux al false rest
  | true, c :: rest => c :: prefixTemplateAux al true rest

/-- Modelled from the spec: `TermMapInfo::prefix_attributes` — every attribute
name used by the term map is prefixed with the alias (and an underscore):
the raw value itself for a `Reference` term map, every placeholder name for a
`Template` one; a `Constant` term map has no attributes and is unchanged. -/
def TermMapInfo.prefix_attributes (t : TermMapInfo) (al : String) : TermMapInfo :=
  match t.term_map_type with
  | TermMapType.Constant => t
  | TermMapType.Reference => { t with term_value := al ++ "_" ++ t.term_value }
  | TermMapType.Template =>
      { t with term_value := String.mk (prefixTemplateAux al false t.term_value.data) }

/-- `rml_model::term_map::SubjectMap` (the `tm_info` field used here). -/
structure SubjectMap where
  tm_info : TermMapInfo
deriving DecidableEq, Repr

/-- `rml_model::term_map::PredicateMap`. -/
structure PredicateMap where
  tm_info : TermMapInfo
deriving DecidableEq, Repr

/-- `rml_model::term_map::GraphMap`. -/
structure GraphMap where
  tm_info : TermMapInfo
deriving DecidableEq, Repr

/-- `rml_model::join::JoinCondition`: parallel child/parent equi-join keys. -/
structure JoinCondition where
  child_attributes : List String
  parent_attributes : List String
deriving DecidableEq, Repr

/-- `rml_model::term_map::ObjectMap`: a term map plus the optional parent
triples-map reference and join condition. -/
structure ObjectMap where
  tm_info : TermMapInfo
  parent_tm : Option String
  join_condition : Option JoinCondition
deriving DecidableEq, Repr

/-- `rml_model::PredicateObjectMap`. -/
structure PredicateObjectMap where
  predicate_maps : List PredicateMap
  object_maps : List ObjectMap
deriving DecidableEq, Repr

/-- Modelled from the spec: `PredicateObjectMap::contains_ptm` — a POM is
join-bearing iff at least one of its object maps carries a parent reference. -/
def PredicateObjectMap.contains_ptm (pom : PredicateObjectMap) : Bool :=
  pom.object_maps.any (fun om => om.parent_tm.isSome)

/-- `rml_model::TriplesMap` (`logical_source` kept as an opaque description). -/
structure TriplesMap where
  identifier : String
  logical_source : String
  subject_map : SubjectMap
  graph_map : Option GraphMap
  po_maps : List PredicateObjectMap
deriving DecidableEq, Repr

/-- `rml_model::Document`. -/
structure Document where
  triples_maps : List TriplesMap
deriving DecidableEq, Repr

/-- `file_target`: target configuration `path = "<count>_output.nt"`,
N-Triples data format. -/
def file_target (count : Nat) : String × DataFormat :=
  (Nat.repr count ++ "_output.nt", DataFormat.NT)

/-- `partition_pom_join_nonjoin`: split the enumerated POMs into join-bearing
and non-join ones; each join-bearing POM keeps only its parent-referencing
object maps, and its remaining object maps (if any) are lifted into a new
synthetic POM with the same predicate maps, appended to the non-join list. -/
def partition_pom_join_nonjoin (poms : List PredicateObjectMap) :
    List (Nat × PredicateObjectMap) × List (Nat × PredicateObjectMap) :=
  let parts := poms.enum.partition (fun p => p.2.contains_ptm)
  parts.1.foldl
    (fun acc p =>
      let oparts := p.2.object_maps.partition (fun om => om.parent_tm.isSome)
      (acc.1 ++ [(p.1, { p.2 with object_maps := oparts.1 })],
       if oparts.2.isEmpty then acc.2
       else acc.2 ++ [(p.1, ⟨p.2.predicate_maps, oparts.2⟩)]))
    ([], parts.2)

/-- The Rust panic message of `Option::unwrap` on `None`. -/
def unwrapNoneMsg : String := "called Option::unwrap on a None value"

/-- `extract_extend_function_from_term_map`: value function from the term-map
type, wrapped by the type function from the term type.  A Rust panic (the
`unwrap` of an absent `term_type`, or the `panic!` on an unrecognized term
kind) is modelled as `Except.error` with the panic message. -/
def extract_extend_function_from_term_map (tm_info : TermMapInfo) :
    Except String Function :=
  let value_function : Function :=
    match tm_info.term_map_type with
    | TermMapType.Constant => Function.Constant tm_info.term_value
    | TermMapType.Reference => Function.Reference tm_info.term_value
    | TermMapType.Template => Function.Template tm_info.term_value
  match tm_info.term_type with
  | none => Except.error unwrapNoneMsg
  | some TermKind.Iri =>
      Except.ok (Function.Iri (Function.UriEncode value_function))
  | some TermKind.Literal => Except.ok (Function.Literal value_function)
  | some TermKind.BlankNode => Except.ok (Function.BlankNode value_function)
  | some TermKind.Variable => Except.error "Unrecognized term kind Variable"

/-- `translate_source_op`. -/
def translate_source_op (tm : TriplesMap) : String := tm.logical_source

/-- `translate_projection_op`: subject-map attributes, then per POM the object
maps' contributions (for an object map with a join condition: its child and
parent attributes appended; otherwise its own term-map attributes) followed by
the predicate maps' attributes, then the graph-map attributes.  The Rust
`HashSet` is modelled as the list of inserted attributes; claims about it are
stated via membership. -/
def translate_projection_op (tm : TriplesMap) : Operator :=
  let projection_attributes := tm.subject_map.tm_info.get_attributes
  let gm_attributes :=
    match tm.graph_map with
    | none => []
    | some gm => gm.tm_info.get_attributes
  let p_attributes := tm.po_maps.flatMap (fun pom =>
    let om_attrs := pom.object_maps.flatMap (fun om =>
      match om.join_condition with
      | some join_cond =>
          join_cond.child_attributes ++ join_cond.parent_attributes
      | none => om.tm_info.get_attributes)
    let pm_attrs := pom.predicate_maps.flatMap
      (fun pm => pm.tm_info.get_attributes)
    om_attrs ++ pm_attrs)
  Operator.ProjectOp (projection_attributes ++ p_attributes ++ gm_attributes)

/-- `HashMap::insert`: replace the binding of `k` in place if present,
otherwise append it. -/
def hmInsert {α : Type} : List (String × α) → String → α → List (String × α)
  | [], k, v => [(k, v)]
  | (k', v') :: rest, k, v =>
      if k' = k then (k, v) :: rest else (k', v') :: hmInsert rest k v

/-- `collect::<HashMap<_, _>>()` over a pair sequence: left-to-right inserts,
a later binding of the same key overwriting the earlier one. -/
def hmCollect {α : Type} (l : List (String × α)) : List (String × α) :=
  l.foldl (fun m p => hmInsert m p.1 p.2) []

/-- `HashMap::get`. -/
def hmLookup {α : Type} (m : List (String × α)) (k : String) : Option α :=
  (m.find? (fun p => p.1 == k)).map Prod.snd

/-- `collect::<Result<Vec<_>, _>>()` over a mapped sequence: the results in
order, stopping at the first failure (a modelled panic here). -/
def mapExcept {α β : Type} (f : α → Except String β) : List α → Except String (List β)
  | [] => Except.ok []
  | x :: rest =>
    match f x with
    | Except.error m => Except.error m
    | Except.ok y =>
      match mapExcept f rest with
      | Except.error m => Except.error m
      | Except.ok ys => Except.ok (y :: ys)

/-- `sm_extract_extend_pair`: the `<prefix>_sm` extend pair of a subject map. -/
def sm_extract_extend_pair (prefix_id : String) (sm : SubjectMap) :
    Except String (List (String × Function)) :=
  match extract_extend_function_from_term_map sm.tm_info with
  | Except.error m => Except.error m
  | Except.ok f => Except.ok [(prefix_id ++ "_sm", f)]

/-- The extend pairs of one indexed POM: `<prefix>_p<pom>-<i>` per predicate
map, then `<prefix>_o<pom>-<j>` per object map. -/
def pom_extend_pairs (prefix_id : String) (p : Nat × PredicateObjectMap) :
    Except String (List (String × Function)) :=
  match mapExcept (fun q =>
      match extract_extend_function_from_term_map (Prod.snd q).tm_info with
      | Except.error m => Except.error m
      | Except.ok f =>
          Except.ok (prefix_id ++ "_p" ++ Nat.repr p.1 ++ "-" ++ Nat.repr q.1, f))
    p.2.predicate_maps.enum with
  | Except.error m => Except.error m
  | Except.ok predicate_extends =>
    match mapExcept (fun q =>
        match extract_extend_function_from_term_map (Prod.snd q).tm_info with
        | Except.error m => Except.error m
        | Except.ok f =>
            Except.ok (prefix_id ++ "_o" ++ Nat.repr p.1 ++ "-" ++ Nat.repr q.1, f))
      p.2.object_maps.enum with
    | Except.error m => Except.error m
    | Except.ok object_extends => Except.ok (predicate_extends ++ object_extends)

/-- `translate_extend_pairs`: the subject pair (extracted eagerly first, as in
the source), then per indexed POM the predicate and object pairs, collected
into a `HashMap` with the POM pairs preceding the subject pair
(`poms_extend.chain(sub_extend)`). -/
def translate_extend_pairs (prefix_id : String) (sm : SubjectMap)
    (idx_poms : List (Nat × PredicateObjectMap)) :
    Except String (List (String × Function)) :=
  match sm_extract_extend_pair prefix_id sm with
  | Except.error m => Except.error m
  | Except.ok sub_extend =>
    match mapExcept (pom_extend_pairs prefix_id) idx_poms with
    | Except.error m => Except.error m
    | Except.ok poms_extend =>
        Except.ok (hmCollect (poms_extend.flatten ++ sub_extend))

/-- `translate_extend_op`. -/
def translate_extend_op (sm : SubjectMap)
    (idx_poms : List (Nat × PredicateObjectMap)) (prefix_id : String) :
    Except String Operator :=
  match translate_extend_pairs prefix_id sm idx_poms with
  | Except.error m => Except.error m
  | Except.ok extend_pairs => Except.ok (Operator.ExtendOp extend_pairs)

/-- `extract_serializer_template`: per indexed POM the Cartesian product of its
predicate-attribute names and object-attribute names, each pair rendered as
`" ?<subject> ?<predicate> ?<object>."` and folded with a trailing newline. -/
def extract_serializer_template (idx_poms : List (Nat × PredicateObjectMap))
    (prefix_id : String) : String :=
  let subject := prefix_id ++ "_sm"
  let predicate_objects := idx_poms.flatMap (fun p =>
    let predicates := (List.range p.2.predicate_maps.length).map
      (fun p_count => prefix_id ++ "_p" ++ Nat.repr p.1 ++ "-" ++ Nat.repr p_count)
    let objects := (List.range p.2.object_maps.length).map
      (fun o_count => prefix_id ++ "_o" ++ Nat.repr p.1 ++ "-" ++ Nat.repr o_count)
    predicates.flatMap (fun p_string =>
      objects.map (fun o_string => (p_string, o_string))))
  (predicate_objects.map (fun pr =>
      " ?" ++ subject ++ " ?" ++ pr.1 ++ " ?" ++ pr.2 ++ ".")).foldl
    (fun a b => a ++ b ++ "\n") ""

/-- `translate_serializer_op`: the template with the N-Triples format. -/
def translate_serializer_op (idx_poms : List (Nat × PredicateObjectMap))
    (prefix_id : String) : String × DataFormat :=
  (extract_serializer_template idx_poms prefix_id, DataFormat.NT)

/-- Outcome of a stateful translation step: `ok` with the new graph, `errored`
with the graph as mutated up to the failure (the shared graph keeps all
mutations made before an `Err` return), or a Rust panic. -/
inductive TResult where
  | ok (g : PGraph)
  | errored (g : PGraph) (e : PlanError)
  | panicked (msg : String)
deriving DecidableEq, Repr

/-- Short-circuit sequencing of translation steps. -/
def TResult.thenOk (r : TResult) (f : PGraph → TResult) : TResult :=
  match r with
  | TResult.ok g => f g
  | other => other

/-- `add_non_join_related_ops`: extend, serialize and sink the unit's own
fragment.  The `Result` of the final `sink` call is discarded in the source
(`let _ = …`); a sink error would leave the pre-sink graph and still yield
`Ok`. -/
def add_non_join_related_ops (no_join_idx_poms : List (Nat × PredicateObjectMap))
    (sm : SubjectMap) (prefix_id : String) (g : PGraph) (frontier : Nat)
    (count : Nat) : TResult :=
  match translate_extend_op sm no_join_idx_poms prefix_id with
  | Except.error msg => TResult.panicked msg
  | Except.ok extend_op =>
    let serializer_op := translate_serializer_op no_join_idx_poms prefix_id
    match plan_apply g (some frontier) extend_op "ExtendOp" with
    | Except.error e => TResult.errored g e
    | Except.ok (g₁, f₁) =>
      match plan_serialize g₁ (some f₁) serializer_op.1 serializer_op.2 with
      | Except.error e => TResult.errored g₁ e
      | Except.ok (g₂, f₂) =>
        match plan_sink g₂ (some f₂) (file_target count).1 (file_target count).2 with
        | Except.error _ => TResult.ok g₂
        | Except.ok (g₃, _) => TResult.ok g₃

/-- The body of the inner loop of `add_join_related_ops`, for one
parent-referencing object map: parent lookup, join-condition `unwrap` (a panic
when absent), join with the parent fragment under the `join_<idx>` alias,
alias-prefixing of the parent subject map, the synthetic
`<prefix>_o<pom>-<om>` extend pair, then extend/serialize/sink (the sink
`Result` again discarded). -/
def process_join_om (search_tm_plan_map : List (String × (Nat × TriplesMap × Nat)))
    (sm : SubjectMap) (prefix_id : String) (count : Nat) (pom_idx : Nat)
    (pms : List PredicateMap) (om_idx : Nat) (om : ObjectMap)
    (frontier : Nat) (g : PGraph) : TResult :=
  match om.parent_tm with
  | none =>
      TResult.errored g
        (PlanError.AuxError "Parent triples map needs to be present in OM")
  | some ptm_iri =>
    match hmLookup search_tm_plan_map ptm_iri with
    | none =>
        TResult.errored g
          (PlanError.AuxError ("Parent triples map IRI is wrong: " ++ ptm_iri))
    | some (idx, ptm, other_frontier) =>
      match om.join_condition with
      | none => TResult.panicked unwrapNoneMsg
      | some join_cond =>
        let ptm_alias := "join_" ++ Nat.repr idx
        let joined := plan_join g frontier other_frontier ptm_alias
          join_cond.child_attributes join_cond.parent_attributes
        let ptm_sm_info := ptm.subject_map.tm_info.prefix_attributes ptm_alias
        match extract_extend_function_from_term_map ptm_sm_info with
        | Except.error msg => TResult.panicked msg
        | Except.ok ptm_sub_function =>
          let om_extend_attr :=
            prefix_id ++ "_o" ++ Nat.repr pom_idx ++ "-" ++ Nat.repr om_idx
          let pom_with_joined_ptm : PredicateObjectMap := ⟨pms, [om]⟩
          match translate_extend_pairs prefix_id sm [(pom_idx, pom_with_joined_ptm)] with
          | Except.error msg => TResult.panicked msg
          | Except.ok extend_pairs₀ =>
            let extend_pairs := hmInsert extend_pairs₀ om_extend_attr ptm_sub_function
            let extend_op := Operator.ExtendOp extend_pairs
            let serializer_op :=
              translate_serializer_op [(pom_idx, pom_with_joined_ptm)] prefix_id
            match plan_apply joined.1 (some joined.2) extend_op "Extend" with
            | Except.error e => TResult.errored joined.1 e
            | Except.ok (g₂, f₂) =>
              match plan_serialize g₂ (some f₂) serializer_op.1 serializer_op.2 with
              | Except.error e => TResult.errored g₂ e
              | Except.ok (g₃, f₃) =>
                match plan_sink g₃ (some f₃) (file_target count).1 (file_target count).2 with
                | Except.error _ => TResult.ok g₃
                | Except.ok (g₄, _) => TResult.ok g₄

/-- `add_join_related_ops`: one join sub-plan per parent-referencing object
map, each hanging off the unit's own (unchanged) frontier. -/
def add_join_related_ops (join_idx_poms : List (Nat × PredicateObjectMap))
    (search_tm_plan_map : List (String × (Nat × TriplesMap × Nat)))
    (sm : SubjectMap) (prefix_id : String) (g : PGraph) (frontier : Nat)
    (count : Nat) : TResult :=
  join_idx_poms.foldl
    (fun acc p =>
      acc.thenOk (fun g₀ =>
        p.2.object_maps.enum.foldl
          (fun acc₂ q =>
            acc₂.thenOk (fun g₁ =>
              process_join_om search_tm_plan_map sm prefix_id count p.1
                p.2.predicate_maps q.1 q.2 frontier g₁))
          (TResult.ok g₀)))
    (TResult.ok g)

/-- The body of the second-pass `try_for_each` closure of
`translate_to_algebra` for the unit at sequence index `count`. -/
def secondPassStep (search_tm_plan_map : List (String × (Nat × TriplesMap × Nat)))
    (count : Nat) (tm : TriplesMap) (frontier : Nat) (g : PGraph) : TResult :=
  let prefix_id := "tm_" ++ Nat.repr count
  let sm := tm.subject_map
  let parts := partition_pom_join_nonjoin tm.po_maps
  let r₁ :=
    if parts.2.isEmpty then TResult.ok g
    else add_non_join_related_ops parts.2 sm prefix_id g frontier count
  r₁.thenOk (fun g₁ =>
    if parts.1.isEmpty then TResult.ok g₁
    else add_join_related_ops parts.1 search_tm_plan_map sm prefix_id g₁
      frontier count)

/-- First pass of `translate_to_algebra`: per triples map a
`Source → Project` fragment, recording the handle (its Project frontier). -/
def firstPassGo : List TriplesMap → PGraph → List (TriplesMap × Nat) →
    Except PlanError (PGraph × List (TriplesMap × Nat))
  | [], g, acc => Except.ok (g, acc)
  | tm :: rest, g, acc =>
    let sres := plan_source g (translate_source_op tm)
    match plan_apply sres.1 (some sres.2) (translate_projection_op tm) "Projection" with
    | Except.error e => Except.error e
    | Except.ok (g₁, f₁) => firstPassGo rest g₁ (acc ++ [(tm, f₁)])

/-- The `search_tm_plan_map` of `translate_to_algebra`: identifier-keyed
`HashMap` of `(sequence_index, triples_map, fragment frontier)`. -/
def mkSearchMap (pairs : List (TriplesMap × Nat)) :
    List (String × (Nat × TriplesMap × Nat)) :=
  (pairs.enum.map (fun p => (p.2.1.identifier, (p.1, p.2.1, p.2.2)))).foldl
    (fun m q => hmInsert m q.1 q.2) []

/-- Second pass of `translate_to_algebra` (`try_for_each`): stops at the first
step that errors or panics. -/
def secondPassGo (search_tm_plan_map : List (String × (Nat × TriplesMap × Nat))) :
    List (TriplesMap × Nat) → Nat → PGraph → TResult
  | [], _, g => TResult.ok g
  | (tm, f) :: rest, count, g =>
    match secondPassStep search_tm_plan_map count tm f g with
    | TResult.ok g₁ => secondPassGo search_tm_plan_map rest (count + 1) g₁
    | other => other

/-- Overall outcome of `translate_to_algebra`: a returned plan graph, a
returned `PlanError`, or a Rust panic. -/
inductive TransResult where
  | ok (g : PGraph)
  | err (e : PlanError)
  | panicked (msg : String)
deriving DecidableEq, Repr

/-- `translate_to_algebra`.  The second pass's `Result` is bound to `_` in the
source (`let _ = … .try_for_each(…)`), so a second-pass `Err` is discarded and
the function still returns `Ok` with the graph as mutated so far; only a first
pass `Err` is returned, and a panic aborts. -/
def translate_to_algebra (doc : Document) : TransResult :=
  match firstPassGo doc.triples_maps PGraph.empty [] with
  | Except.error e => TransResult.err e
  | Except.ok (g, pairs) =>
    match secondPassGo (mkSearchMap pairs) pairs 0 g with
    | TResult.ok g₁ => TransResult.ok g₁
    | TResult.errored g₁ _ => TransResult.ok g₁
    | TResult.panicked msg => TransResult.panicked msg

/-- The kind (tag) of an operator, used to state graph-shape claims. -/
inductive OpKind where
  | source
  | project
  | extend
  | rename
  | join
  | serializer
  | target
deriving DecidableEq, Repr

def Operator.kind : Operator → OpKind
  | Operator.SourceOp _ => OpKind.source
  | Operator.ProjectOp _ => OpKind.project
  | Operator.ExtendOp _ => OpKind.extend
  | Operator.RenameOp _ => OpKind.rename
  | Operator.JoinOp _ _ _ => OpKind.join
  | Operator.SerializerOp _ _ => OpKind.serializer
  | Operator.TargetOp _ _ => OpKind.target

/-- The operators reserved for dedicated entry points, rejected by `apply`. -/
def Operator.isReserved (op : Operator) : Bool :=
  match op with
  | Operator.SourceOp _ => true
  | Operator.TargetOp _ _ => true
  | Operator.SerializerOp _ _ => true
  | _ => false

/-- The synthesized subject attribute name `<prefix>_sm` (spec §4.3). -/
def smAttrName (prefix_id : String) : String := prefix_id ++ "_sm"

/-- The synthesized predicate attribute name `<prefix>_p<pom>-<idx>`. -/
def pAttrName (prefix_id : String) (pom_idx i : Nat) : String :=
  prefix_id ++ "_p" ++ Nat.repr pom_idx ++ "-" ++ Nat.repr i

/-- The synthesized object attribute name `<prefix>_o<pom>-<idx>`. -/
def oAttrName (prefix_id : String) (pom_idx j : Nat) : String :=
  prefix_id ++ "_o" ++ Nat.repr pom_idx ++ "-" ++ Nat.repr j

end Defs

section HmLemmas

theorem hmInsert_mem_fst {α : Type} (m : List (String × α)) (k a : String) (v : α) :
    a ∈ (hmInsert m k v).map Prod.fst ↔ a ∈ m.map Prod.fst ∨ a = k := by
  induction m with
  | nil => simp [hmInsert]
  | cons hd tl ih =>
    by_cases h : hd.1 = k
    · simp [hmInsert, h]
      tauto
    · simp [hmInsert, h, ih]
      tauto

theorem hmCollect_mem_fst_aux {α : Type} (l : List (String × α)) :
    ∀ (m : List (String × α)) (a : String),
      a ∈ (l.foldl (fun m p => hmInsert m p.1 p.2) m).map Prod.fst ↔
        a ∈ m.map Prod.fst ∨ a ∈ l.map Prod.fst := by
  induction l with
  | nil => simp
  | cons hd tl ih =>
    intro m a
    simp only [List.foldl_cons, ih, hmInsert_mem_fst, List.map_cons, List.mem_cons]
    tauto

theorem hmCollect_mem_fst {α : Type} (l : List (String × α)) (a : String) :
    a ∈ (hmCollect l).map Prod.fst ↔ a ∈ l.map Prod.fst := by
  simpa [hmCollect] using hmCollect_mem_fst_aux l [] a

theorem hmLookup_hmInsert {α : Type} (m : List (String × α)) (k : String) (v : α) :
    hmLookup (hmInsert m k v) k = some v := by
  induction m with
  | nil => simp [hmInsert, hmLookup, List.find?]
  | cons hd tl ih =>
    by_cases h : hd.1 = k
    · simp [hmInsert, h, hmLookup, List.find?]
    · have hb : (hd.1 == k) = false := by simpa using h
      simp only [hmInsert, h, if_false, hmLookup, List.find?] at ih ⊢
      rw [hb]
      exact ih

end HmLemmas

section MapExceptLemmas

theorem mapExcept_ok_map_eq {α β : Type} (f : α → Except String β) (nm : α → String)
    (pr : β → String) (hf : ∀ x y, f x = Except.ok y → pr y = nm x) :
    ∀ (l : List α) (r : List β), mapExcept f l = Except.ok r → r.map pr = l.map nm := by
  intro l
  induction l with
  | nil =>
    intro r h
    simp only [mapExcept] at h
    cases h
    rfl
  | cons x rest ih =>
    intro r h
    simp only [mapExcept] at h
    cases hx : f x with
    | error m => rw [hx] at h; cases h
    | ok y =>
      rw [hx] at h
      cases hrest : mapExcept f rest with
      | error m => rw [hrest] at h; cases h
      | ok ys =>
        rw [hrest] at h
        cases h
        simp [hf x y hx, ih ys hrest]

theorem mapExcept_ok_length {α β : Type} (f : α → Except String β) :
    ∀ (l : List α) (r : List β), mapExcept f l = Except.ok r → r.length = l.length := by
  intro l
  induction l with
  | nil =>
    intro r h
    simp only [mapExcept] at h
    cases h
    rfl
  | cons x rest ih =>
    intro r h
    simp only [mapExcept] at h
    cases hx : f x with
    | error m => rw [hx] at h; cases h
    | ok y =>
      rw [hx] at h
      cases hrest : mapExcept f rest with
      | error m => rw [hrest] at h; cases h
      | ok ys =>
        rw [hrest] at h
        cases h
        simp [ih ys hrest]

end MapExceptLemmas

section DigitLemmas

theorem digitChar_lt_ne (m : Nat) (hm : m < 10) :
    Nat.digitChar m ≠ '_' ∧ Nat.digitChar m ≠ '}' := by
  have key : ∀ x : Fin 10, Nat.digitChar x.val ≠ '_' ∧ Nat.digitChar x.val ≠ '}' := by
    decide
  exact key ⟨m, hm⟩

theorem toDigitsCore_pred (P : Char → Prop) (hd : ∀ m, m < 10 → P (Nat.digitChar m)) :
    ∀ (fuel n : Nat) (acc : List Char), (∀ c ∈ acc, P c) →
      ∀ c ∈ Nat.toDigitsCore 10 fuel n acc, P c := by
  intro fuel
  induction fuel with
  | zero =>
    intro n acc hacc c hc
    exact hacc c hc
  | succ f ih =>
    intro n acc hacc c hc
    simp only [Nat.toDigitsCore] at hc
    by_cases hz : n / 10 = 0
    · rw [if_pos hz] at hc
      rcases List.mem_cons.mp hc with h | h
      · exact h ▸ hd _ (Nat.mod_lt _ (by norm_num))
      · exact hacc c h
    · rw [if_neg hz] at hc
      refine ih (n / 10) (Nat.digitChar (n % 10) :: acc) ?_ c hc
      intro d hdm
      rcases List.mem_cons.mp hdm with h | h
      · exact h ▸ hd _ (Nat.mod_lt _ (by norm_num))
      · exact hacc d h

theorem repr_data_eq (n : Nat) : (Nat.repr n).data = Nat.toDigits 10 n := by
  rfl

theorem mem_repr_pred (P : Char → Prop) (hd : ∀ m, m < 10 → P (Nat.digitChar m))
    (n : Nat) : ∀ c ∈ (Nat.repr n).data, P c := by
  rw [repr_data_eq]
  exact toDigitsCore_pred P hd (n + 1) n [] (by intro c hc; cases hc)

theorem underscore_not_mem_repr (n : Nat) : '_' ∉ (Nat.repr n).data := by
  have := mem_repr_pred (fun c => c ≠ '_' ∧ c ≠ '}')
    (fun m hm => digitChar_lt_ne m hm) n
  intro h
  exact (this '_' h).1 rfl

theorem rbrace_not_mem_repr (n : Nat) : '}' ∉ (Nat.repr n).data := by
  have := mem_repr_pred (fun c => c ≠ '_' ∧ c ≠ '}')
    (fun m hm => digitChar_lt_ne m hm) n
  intro h
  exact (this '}' h).2 rfl

theorem toDigitsCore_eq_digits :
    ∀ (fuel n : Nat) (acc : List Char), 0 < n → n < fuel →
      Nat.toDigitsCore 10 fuel n acc =
        ((Nat.digits 10 n).map Nat.digitChar).reverse ++ acc := by
  intro fuel
  induction fuel with
  | zero =>
    intro n acc hn hlt
    omega
  | succ f ih =>
    intro n acc hn hlt
    simp only [Nat.toDigitsCore]
    have hdig : Nat.digits 10 n = n % 10 :: Nat.digits 10 (n / 10) :=
      Nat.digits_def' (by norm_num) hn
    by_cases hz : n / 10 = 0
    · rw [if_pos hz, hdig, hz]
      simp
    · rw [if_neg hz]
      have hlt' : n / 10 < f := by
        have h1 : n / 10 < n := Nat.div_lt_self hn (by norm_num)
        omega
      rw [ih (n / 10) (Nat.digitChar (n % 10) :: acc) (Nat.pos_of_ne_zero hz) hlt']
      rw [hdig]
      simp

theorem digitChar_inj_lt (a b : Nat) (ha : a < 10) (hb : b < 10)
    (h : Nat.digitChar a = Nat.digitChar b) : a = b := by
  have key : ∀ x y : Fin 10, Nat.digitChar x.val = Nat.digitChar y.val → x = y := by
    decide
  have := key ⟨a, ha⟩ ⟨b, hb⟩ h
  exact congrArg Fin.val this

theorem map_digitChar_inj :
    ∀ (l₁ l₂ : List Nat), (∀ d ∈ l₁, d < 10) → (∀ d ∈ l₂, d < 10) →
      l₁.map Nat.digitChar = l₂.map Nat.digitChar → l₁ = l₂ := by
  intro l₁
  induction l₁ with
  | nil =>
    intro l₂ _ _ h
    cases l₂ with
    | nil => rfl
    | cons b t => simp at h
  | cons a t ih =>
    intro l₂ h₁ h₂ h
    cases l₂ with
    | nil => simp at h
    | cons b t₂ =>
      simp only [List.map_cons, List.cons.injEq] at h
      have hab : a = b :=
        digitChar_inj_lt a b (h₁ a (by simp)) (h₂ b (by simp)) h.1
      have ht : t = t₂ :=
        ih t₂ (fun d hd => h₁ d (by simp [hd])) (fun d hd => h₂ d (by simp [hd])) h.2
      rw [hab, ht]

theorem toDigits_pos_eq (k : Nat) (hk : 0 < k) :
    Nat.toDigits 10 k = ((Nat.digits 10 k).map Nat.digitChar).reverse := by
  have := toDigitsCore_eq_digits (k + 1) k [] hk (by omega)
  simpa [Nat.toDigits] using this

theorem map_digitChar_digits_eq_zero (n : Nat)
    (h : (Nat.digits 10 n).map Nat.digitChar = ['0']) : n = 0 := by
  cases hd : Nat.digits 10 n with
  | nil => exact (Nat.digits_eq_nil_iff_eq_zero.mp hd)
  | cons d t =>
    rw [hd] at h
    cases t with
    | nil =>
      simp only [List.map_cons, List.map_nil, List.cons.injEq, and_true] at h
      have hdlt : d < 10 := Nat.digits_lt_base (by norm_num) (by rw [hd]; simp)
      have hd0 : d = 0 := by
        have : Nat.digitChar 0 = '0' := by decide
        exact digitChar_inj_lt d 0 hdlt (by norm_num) (by rw [h, this])
      have := Nat.ofDigits_digits 10 n
      rw [hd, hd0] at this
      simpa [Nat.ofDigits] using this.symm
    | cons d₂ t₂ => simp at h

theorem toDigits_inj (m n : Nat) (h : Nat.toDigits 10 m = Nat.toDigits 10 n) :
    m = n := by
  have h0 : Nat.toDigits 10 0 = ['0'] := by rfl
  by_cases hm : m = 0
  · by_cases hn : n = 0
    · omega
    · rw [hm, h0, toDigits_pos_eq n (Nat.pos_of_ne_zero hn)] at h
      have hrev := congrArg List.reverse h
      simp only [List.reverse_reverse] at hrev
      exact absurd (map_digitChar_digits_eq_zero n (by simpa using hrev.symm)) hn
  · by_cases hn : n = 0
    · rw [hn, h0, toDigits_pos_eq m (Nat.pos_of_ne_zero hm)] at h
      have hrev := congrArg List.reverse h
      simp only [List.reverse_reverse] at hrev
      exact absurd (map_digitChar_digits_eq_zero m (by simpa using hrev)) hm
    · rw [toDigits_pos_eq m (Nat.pos_of_ne_zero hm),
        toDigits_pos_eq n (Nat.pos_of_ne_zero hn)] at h
      have hrev := congrArg List.reverse h
      simp only [List.reverse_reverse] at hrev
      have hmap := map_digitChar_inj (Nat.digits 10 m) (Nat.digits 10 n)
        (fun d hd => Nat.digits_lt_base (by norm_num) hd)
        (fun d hd => Nat.digits_lt_base (by norm_num) hd) hrev
      have h1 := Nat.ofDigits_digits 10 m
      have h2 := Nat.ofDigits_digits 10 n
      rw [← h1, ← h2, hmap]

theorem repr_inj (m n : Nat) (h : Nat.repr m = Nat.repr n) : m = n := by
  apply toDigits_inj
  have := congrArg String.data h
  simpa [repr_data_eq] using this

end DigitLemmas

section SepLemmas

/-- If two separator-terminated concatenations agree and neither suffix
contains the separator, the suffixes agree (the separator occurrence before
them is the last one). -/
theorem sep_head_inj (sep : Char) :
    ∀ (a₁ a₂ b₁ b₂ : List Char), a₁ ++ sep :: b₁ = a₂ ++ sep :: b₂ →
      sep ∉ a₁ → sep ∉ a₂ → a₁ = a₂ := by
  intro a₁
  induction a₁ with
  | nil =>
    intro a₂ b₁ b₂ h h₁ h₂
    cases a₂ with
    | nil => rfl
    | cons c t =>
      simp only [List.nil_append, List.cons_append, List.cons.injEq] at h
      exact absurd (h.1 ▸ List.mem_cons_self c t) h₂
  | cons c t ih =>
    intro a₂ b₁ b₂ h h₁ h₂
    cases a₂ with
    | nil =>
      simp only [List.cons_append, List.nil_append, List.cons.injEq] at h
      exact absurd (h.1.symm ▸ List.mem_cons_self c t) h₁
    | cons c₂ t₂ =>
      simp only [List.cons_append, List.cons.injEq] at h
      have := ih t₂ b₁ b₂ h.2 (fun hm => h₁ (List.mem_cons_of_mem c hm))
        (fun hm => h₂ (List.mem_cons_of_mem c₂ hm))
      rw [h.1, this]

theorem sep_tail_inj (sep : Char) (a₁ a₂ b₁ b₂ : List Char)
    (h : a₁ ++ sep :: b₁ = a₂ ++ sep :: b₂) (h₁ : sep ∉ b₁) (h₂ : sep ∉ b₂) :
    b₁ = b₂ := by
  have hrev : b₁.reverse ++ sep :: a₁.reverse = b₂.reverse ++ sep :: a₂.reverse := by
    have := congrArg List.reverse h
    simpa [List.reverse_append] using this
  have := sep_head_inj sep b₁.reverse b₂.reverse a₁.reverse a₂.reverse hrev
    (by simpa using h₁) (by simpa using h₂)
  have := congrArg List.reverse this
  simpa using this

/-- Identifiers of the form `<prefix>_<decimal>` determine the decimal part:
used to show node ids are pairwise distinct. -/
theorem id_suffix_inj (p₁ p₂ : String) (m n : Nat)
    (h : p₁ ++ "_" ++ Nat.repr m = p₂ ++ "_" ++ Nat.repr n) : m = n := by
  apply repr_inj
  have hdata := congrArg String.data h
  simp only [String.data_append] at hdata
  have hm := underscore_not_mem_repr m
  have hn := underscore_not_mem_repr n
  have : p₁.data ++ '_' :: (Nat.repr m).data = p₂.data ++ '_' :: (Nat.repr n).data := by
    simpa using hdata
  have hd := sep_tail_inj '_' p₁.data p₂.data (Nat.repr m).data (Nat.repr n).data this hm hn
  exact String.ext hd

end SepLemmas

section TemplateLemmas

theorem templateAttrsAux_none_skip (c : Char) (r : List Char) (hc : c ≠ '{') :
    templateAttrsAux none (c :: r) = templateAttrsAux none r := by
  rw [templateAttrsAux.eq_def]
  split <;> simp_all

theorem templateAttrsAux_some_push (a : List Char) (c : Char) (r : List Char)
    (hc : c ≠ '}') :
    templateAttrsAux (some a) (c :: r) = templateAttrsAux (some (c :: a)) r := by
  rw [templateAttrsAux.eq_def]
  split <;> simp_all

theorem prefixTemplateAux_false_skip (al : String) (c : Char) (r : List Char)
    (hc : c ≠ '{') :
    prefixTemplateAux al false (c :: r) = c :: prefixTemplateAux al false r := by
  rw [prefixTemplateAux.eq_def]
  split <;> simp_all

theorem prefixTemplateAux_true_skip (al : String) (c : Char) (r : List Char)
    (hc : c ≠ '}') :
    prefixTemplateAux al true (c :: r) = c :: prefixTemplateAux al true r := by
  rw [prefixTemplateAux.eq_def]
  split <;> simp_all

/-- Scanning a placeholder body: characters that are not the closing brace are
accumulated (reversed). -/
theorem templateAttrsAux_consume (cs : List Char) (hcs : '}' ∉ cs) :
    ∀ (acc tail : List Char),
      templateAttrsAux (some acc) (cs ++ tail) =
        templateAttrsAux (some (cs.reverse ++ acc)) tail := by
  induction cs with
  | nil => intro acc tail; simp
  | cons c t ih =>
    intro acc tail
    have hc : c ≠ '}' := fun h => hcs (h ▸ List.mem_cons_self c t)
    rw [List.cons_append, templateAttrsAux_some_push _ _ _ hc,
      ih (fun h => hcs (List.mem_cons_of_mem c h)) (c :: acc) tail]
    simp

theorem mk_append_eq (al : String) (acc : List Char) :
    String.mk (al.data ++ '_' :: acc) = al ++ "_" ++ String.mk acc := by
  apply String.ext
  simp [String.data_append]

/-- The parser/rewriter compatibility: prefixing the placeholders of a
template with an alias (containing no closing brace) maps each parsed
attribute to its alias-prefixed version.  Stated for both scanning modes. -/
theorem template_modes (al : String) (hal : '}' ∉ al.data) :
    ∀ l : List Char,
      (templateAttrsAux none (prefixTemplateAux al false l) =
        (templateAttrsAux none l).map (fun s => al ++ "_" ++ s)) ∧
      (∀ acc : List Char,
        templateAttrsAux (some (acc ++ '_' :: al.data.reverse))
            (prefixTemplateAux al true l) =
          (templateAttrsAux (some acc) l).map (fun s => al ++ "_" ++ s)) := by
  intro l
  induction l with
  | nil =>
    constructor
    · rfl
    · intro acc; rfl
  | cons c rest ih =>
    constructor
    · by_cases hc : c = '{'
      · subst hc
        show templateAttrsAux none
            ('{' :: (al.data ++ '_' :: prefixTemplateAux al true rest)) = _
        have h1 : templateAttrsAux none
            ('{' :: (al.data ++ '_' :: prefixTemplateAux al true rest)) =
            templateAttrsAux (some []) (al.data ++ '_' :: prefixTemplateAux al true rest) := rfl
        rw [h1, templateAttrsAux_consume al.data hal []]
        have h2 : templateAttrsAux (some (al.data.reverse ++ []))
            ('_' :: prefixTemplateAux al true rest) =
            templateAttrsAux (some ('_' :: (al.data.reverse ++ [])))
              (prefixTemplateAux al true rest) :=
          templateAttrsAux_some_push _ _ _ (by decide)
        rw [h2]
        have h3 : ('_' :: (al.data.reverse ++ [])) = ([] ++ '_' :: al.data.reverse) := by
          simp
        rw [h3, (ih.2) []]
        rfl
      · rw [prefixTemplateAux_false_skip al c rest hc,
          templateAttrsAux_none_skip c _ hc, templateAttrsAux_none_skip c rest hc]
        exact ih.1
    · intro acc
      by_cases hc : c = '}'
      · subst hc
        show templateAttrsAux (some (acc ++ '_' :: al.data.reverse))
            ('}' :: prefixTemplateAux al false rest) = _
        have h1 : templateAttrsAux (some (acc ++ '_' :: al.data.reverse))
            ('}' :: prefixTemplateAux al false rest) =
            String.mk (acc ++ '_' :: al.data.reverse).reverse ::
              templateAttrsAux none (prefixTemplateAux al false rest) := rfl
        rw [h1, ih.1]
        have h2 : (acc ++ '_' :: al.data.reverse).reverse =
            al.data ++ '_' :: acc.reverse := by
          simp
        rw [h2, mk_append_eq]
        rfl
      · rw [prefixTemplateAux_true_skip al c rest hc,
          templateAttrsAux_some_push _ c _ hc, templateAttrsAux_some_push acc c rest hc]
        have h3 : (c :: (acc ++ '_' :: al.data.reverse)) =
            ((c :: acc) ++ '_' :: al.data.reverse) := by simp
        rw [h3]
        exact ih.2 (c :: acc)

/-- `prefix_attributes` rewrites exactly the attribute names: the attributes of
the prefixed term map are the alias-prefixed attributes of the original
(provided the alias contains no closing brace, as the generated join aliases
do not). -/
theorem get_attributes_prefix (t : TermMapInfo) (al : String) (hal : '}' ∉ al.data) :
    (t.prefix_attributes al).get_attributes =
      t.get_attributes.map (fun a => al ++ "_" ++ a) := by
  cases ht : t.term_map_type with
  | Constant =>
    simp [TermMapInfo.prefix_attributes, TermMapInfo.get_attributes, ht]
  | Reference =>
    simp [TermMapInfo.prefix_attributes, TermMapInfo.get_attributes, ht]
  | Template =>
    simp only [TermMapInfo.prefix_attributes, TermMapInfo.get_attributes, ht]
    have := (template_modes al hal t.term_value.data).1
    simpa using this

end TemplateLemmas

section SerializerLemmas

/-- Concatenation of a list of strings (left fold of append from the empty
string), used to state the serializer-template claim. -/
def strConcat (l : List String) : String := l.foldl (fun a b => a ++ b) ""

theorem strConcat_aux : ∀ (l : List String) (s : String),
    l.foldl (fun a b => a ++ b) s = s ++ strConcat l := by
  intro l
  induction l with
  | nil => intro s; simp [strConcat]
  | cons x t ih =>
    intro s
    have h1 : strConcat (x :: t) = x ++ strConcat t := by
      show (x :: t).foldl (fun a b => a ++ b) "" = _
      rw [List.foldl_cons, ih]
      simp
    rw [List.foldl_cons, ih, h1, String.append_assoc]

theorem foldl_newline (l : List String) (s : String) :
    l.foldl (fun a b => a ++ b ++ "\n") s =
      s ++ strConcat (l.map (fun x => x ++ "\n")) := by
  have h : l.foldl (fun a b => a ++ b ++ "\n") s =
      (l.map (fun x => x ++ "\n")).foldl (fun a b => a ++ b) s := by
    rw [List.foldl_map]
    apply List.foldl_ext
    intro a b _
    rw [String.append_assoc]
  rw [h, strConcat_aux]

/-- The serializer template lines stated by the spec: per POM, one line per
pair of the Cartesian product of its predicate positions and object
positions, of the form `" ?<prefix>_sm ?<prefix>_p<pom>-<i> ?<prefix>_o<pom>-<j>.\n"`,
built from the same synthesized attribute names as the extend stage. -/
def serTemplateLines (prefix_id : String)
    (idx_poms : List (Nat × PredicateObjectMap)) : List String :=
  idx_poms.flatMap (fun p =>
    (List.range p.2.predicate_maps.length).flatMap (fun i =>
      (List.range p.2.object_maps.length).map (fun j =>
        " ?" ++ smAttrName prefix_id ++ " ?" ++ pAttrName prefix_id p.1 i ++
          " ?" ++ oAttrName prefix_id p.1 j ++ "." ++ "\n")))

/-- The extend attribute names of one indexed POM per the spec:
`<prefix>_p<pom>-<idx>` per predicate map, `<prefix>_o<pom>-<idx>` per object
map. -/
def pomKeyNames (prefix_id : String) (p : Nat × PredicateObjectMap) : List String :=
  (List.range p.2.predicate_maps.length).map (fun i => pAttrName prefix_id p.1 i) ++
    (List.range p.2.object_maps.length).map (fun j => oAttrName prefix_id p.1 j)

/-- The attribute names synthesized by the extend stage per the spec:
`<prefix>_sm`, and per POM `<prefix>_p<pom>-<idx>` per predicate map and
`<prefix>_o<pom>-<idx>` per object map. -/
def extendKeyNames (prefix_id : String)
    (idx_poms : List (Nat × PredicateObjectMap)) : List String :=
  idx_poms.flatMap (pomKeyNames prefix_id) ++ [smAttrName prefix_id]

theorem extract_serializer_template_eq (idx_poms : List (Nat × PredicateObjectMap))
    (prefix_id : String) :
    extract_serializer_template idx_poms prefix_id =
      strConcat (serTemplateLines prefix_id idx_poms) := by
  show (List.map _ _).foldl _ "" = _
  rw [foldl_newline]
  have : (List.map (fun (pr : String × String) =>
        " ?" ++ (prefix_id ++ "_sm") ++ " ?" ++ pr.1 ++ " ?" ++ pr.2 ++ ".")
        (idx_poms.flatMap (fun p =>
          ((List.range p.2.predicate_maps.length).map
            (fun p_count => prefix_id ++ "_p" ++ Nat.repr p.1 ++ "-" ++ Nat.repr p_count)).flatMap
            (fun p_string =>
              ((List.range p.2.object_maps.length).map
                (fun o_count => prefix_id ++ "_o" ++ Nat.repr p.1 ++ "-" ++ Nat.repr o_count)).map
                (fun o_string => (p_string, o_string)))))).map (fun x => x ++ "\n") =
      serTemplateLines prefix_id idx_poms := by
    simp only [serTemplateLines, List.map_flatMap, List.flatMap_map, List.map_map]
    apply List.flatMap_congr ?_
    intro p _
    apply List.flatMap_congr ?_
    intro i _
    apply List.map_congr_left ?_
    intro j _
    simp [Function.comp, smAttrName, pAttrName, oAttrName]
  rw [this]
  simp

theorem mapExcept_ok_flatten_map {α β γ : Type} (f : α → Except String (List β))
    (pr : β → γ) (nm : α → List γ) (hf : ∀ x y, f x = Except.ok y → y.map pr = nm x) :
    ∀ (l : List α) (r : List (List β)), mapExcept f l = Except.ok r →
      r.flatten.map pr = l.flatMap nm := by
  intro l
  induction l with
  | nil =>
    intro r h
    simp only [mapExcept] at h
    cases h
    rfl
  | cons x rest ih =>
    intro r h
    simp only [mapExcept] at h
    cases hx : f x with
    | error m => rw [hx] at h; cases h
    | ok y =>
      rw [hx] at h
      cases hrest : mapExcept f rest with
      | error m => rw [hrest] at h; cases h
      | ok ys =>
        rw [hrest] at h
        cases h
        simp [hf x y hx, ih ys hrest]

theorem enum_map_fst_name {β : Type} (nm : Nat → String) (l : List β) :
    l.enum.map (fun q => nm q.1) = (List.range l.length).map nm := by
  rw [← List.enum_map_fst l, List.map_map]
  rfl

theorem pom_extend_pairs_ok_keys (prefix_id : String) (p : Nat × PredicateObjectMap)
    (r : List (String × Function)) (h : pom_extend_pairs prefix_id p = Except.ok r) :
    r.map Prod.fst = pomKeyNames prefix_id p := by
  simp only [pom_extend_pairs] at h
  cases hp : mapExcept (fun q =>
      match extract_extend_function_from_term_map (Prod.snd q).tm_info with
      | Except.error m => Except.error m
      | Except.ok f =>
          Except.ok (prefix_id ++ "_p" ++ Nat.repr p.1 ++ "-" ++ Nat.repr q.1, f))
      p.2.predicate_maps.enum with
  | error m => rw [hp] at h; cases h
  | ok predicate_extends =>
    rw [hp] at h
    cases ho : mapExcept (fun q =>
        match extract_extend_function_from_term_map (Prod.snd q).tm_info with
        | Except.error m => Except.error m
        | Except.ok f =>
            Except.ok (prefix_id ++ "_o" ++ Nat.repr p.1 ++ "-" ++ Nat.repr q.1, f))
        p.2.object_maps.enum with
    | error m => rw [ho] at h; cases h
    | ok object_extends =>
      rw [ho] at h
      cases h
      have hpk : predicate_extends.map Prod.fst =
          p.2.predicate_maps.enum.map
            (fun q => prefix_id ++ "_p" ++ Nat.repr p.1 ++ "-" ++ Nat.repr q.1) := by
        refine mapExcept_ok_map_eq _ _ _ ?_ _ _ hp
        intro x y hxy
        cases hex : extract_extend_function_from_term_map (Prod.snd x).tm_info with
        | error m => rw [hex] at hxy; cases hxy
        | ok f => rw [hex] at hxy; cases hxy; rfl
      have hok : object_extends.map Prod.fst =
          p.2.object_maps.enum.map
            (fun q => prefix_id ++ "_o" ++ Nat.repr p.1 ++ "-" ++ Nat.repr q.1) := by
        refine mapExcept_ok_map_eq _ _ _ ?_ _ _ ho
        intro x y hxy
        cases hex : extract_extend_function_from_term_map (Prod.snd x).tm_info with
        | error m => rw [hex] at hxy; cases hxy
        | ok f => rw [hex] at hxy; cases hxy; rfl
      simp only [List.map_append, hpk, hok, pomKeyNames, pAttrName, oAttrName]
      rw [enum_map_fst_name (fun i => prefix_id ++ "_p" ++ Nat.repr p.1 ++ "-" ++ Nat.repr i),
        enum_map_fst_name (fun j => prefix_id ++ "_o" ++ Nat.repr p.1 ++ "-" ++ Nat.repr j)]

theorem translate_extend_pairs_ok_keys (prefix_id : String) (sm : SubjectMap)
    (idx_poms : List (Nat × PredicateObjectMap)) (pairs : List (String × Function))
    (h : translate_extend_pairs prefix_id sm idx_poms = Except.ok pairs) :
    ∀ k, k ∈ pairs.map Prod.fst ↔ k ∈ extendKeyNames prefix_id idx_poms := by
  simp only [translate_extend_pairs] at h
  cases hsm : sm_extract_extend_pair prefix_id sm with
  | error m => rw [hsm] at h; cases h
  | ok sub_extend =>
    rw [hsm] at h
    cases hpom : mapExcept (pom_extend_pairs prefix_id) idx_poms with
    | error m => rw [hpom] at h; cases h
    | ok poms_extend =>
      rw [hpom] at h
      cases h
      have hsub : sub_extend.map Prod.fst = [smAttrName prefix_id] := by
        simp only [sm_extract_extend_pair] at hsm
        cases hex : extract_extend_function_from_term_map sm.tm_info with
        | error m => rw [hex] at hsm; cases hsm
        | ok f => rw [hex] at hsm; cases hsm; rfl
      have hflat : poms_extend.flatten.map Prod.fst =
          idx_poms.flatMap (pomKeyNames prefix_id) :=
        mapExcept_ok_flatten_map _ _ _
          (fun x y hxy => pom_extend_pairs_ok_keys prefix_id x y hxy) _ _ hpom
      intro k
      rw [hmCollect_mem_fst]
      simp only [List.map_append, hsub, hflat, extendKeyNames]

end SerializerLemmas

section PlanStepLemmas

theorem plan_apply_ok (g : PGraph) (last_node : Option Nat) (op : Operator)
    (px : String) (g' : PGraph) (f : Nat)
    (h : plan_apply g last_node op px = Except.ok (g', f)) :
    g'.nodes = g.nodes ++ [⟨px ++ "_" ++ Nat.repr g.nodes.length, op⟩] ∧
    (∃ prev, last_node = some prev ∧
      g'.edges = g.edges ++ [mappingTupleEdge prev g.nodes.length]) ∧
    g'.sources = g.sources ∧ f = g.nodes.length := by
  by_cases hz : g.nodes.length = 0
  · simp only [plan_apply, if_pos hz] at h
    cases h
  · simp only [plan_apply, if_neg hz] at h
    cases last_node with
    | none => cases h
    | some prev =>
      cases op with
      | SourceOp c => cases h
      | TargetOp p fm => cases h
      | SerializerOp t fm => cases h
      | ProjectOp a => exact ⟨(by cases h; rfl), ⟨prev, rfl, by cases h; rfl⟩,
          (by cases h; rfl), (by cases h; rfl)⟩
      | ExtendOp a => exact ⟨(by cases h; rfl), ⟨prev, rfl, by cases h; rfl⟩,
          (by cases h; rfl), (by cases h; rfl)⟩
      | RenameOp a => exact ⟨(by cases h; rfl), ⟨prev, rfl, by cases h; rfl⟩,
          (by cases h; rfl), (by cases h; rfl)⟩
      | JoinOp a c p => exact ⟨(by cases h; rfl), ⟨prev, rfl, by cases h; rfl⟩,
          (by cases h; rfl), (by cases h; rfl)⟩

theorem plan_apply_not_reserved_some_ok (g : PGraph) (prev : Nat) (op : Operator)
    (px : String) (hz : g.nodes.length ≠ 0) (hres : op.isReserved = false) :
    plan_apply g (some prev) op px =
      Except.ok (⟨g.nodes ++ [⟨px ++ "_" ++ Nat.repr g.nodes.length, op⟩],
                  g.edges ++ [mappingTupleEdge prev g.nodes.length],
                  g.sources⟩, g.nodes.length) := by
  cases op <;> simp_all [plan_apply, Operator.isReserved]

theorem plan_serialize_ok (g : PGraph) (last_node : Option Nat) (t : String)
    (fm : DataFormat) (g' : PGraph) (f : Nat)
    (h : plan_serialize g last_node t fm = Except.ok (g', f)) :
    g'.nodes = g.nodes ++
      [⟨"Serialize_" ++ Nat.repr g.nodes.length, Operator.SerializerOp t fm⟩] ∧
    (∃ prev, last_node = some prev ∧
      g'.edges = g.edges ++ [mappingTupleEdge prev g.nodes.length]) ∧
    g'.sources = g.sources ∧ f = g.nodes.length := by
  by_cases hz : g.nodes.length = 0
  · simp only [plan_serialize, if_pos hz] at h
    cases h
  · simp only [plan_serialize, if_neg hz] at h
    cases last_node with
    | none => cases h
    | some prev =>
      exact ⟨(by cases h; rfl), ⟨prev, rfl, by cases h; rfl⟩,
        (by cases h; rfl), (by cases h; rfl)⟩

theorem plan_apply_extend_some_ok (g : PGraph) (prev : Nat)
    (pairs : List (String × Function)) (px : String) (hz : g.nodes.length ≠ 0) :
    plan_apply g (some prev) (Operator.ExtendOp pairs) px =
      Except.ok (⟨g.nodes ++
          [⟨px ++ "_" ++ Nat.repr g.nodes.length, Operator.ExtendOp pairs⟩],
        g.edges ++ [mappingTupleEdge prev g.nodes.length],
        g.sources⟩, g.nodes.length) :=
  plan_apply_not_reserved_some_ok g prev (Operator.ExtendOp pairs) px hz rfl

theorem plan_serialize_some_ok (g : PGraph) (prev : Nat) (t : String)
    (fm : DataFormat) (hz : g.nodes.length ≠ 0) :
    plan_serialize g (some prev) t fm =
      Except.ok (⟨g.nodes ++
          [⟨"Serialize_" ++ Nat.repr g.nodes.length, Operator.SerializerOp t fm⟩],
        g.edges ++ [mappingTupleEdge prev g.nodes.length], g.sources⟩,
        g.nodes.length) := by
  have hz' : ¬ g.nodes = [] := fun h => hz (by simp [h])
  simp [plan_serialize, hz']

theorem plan_sink_some_ok (g : PGraph) (prev : Nat) (p : String) (fm : DataFormat) :
    plan_sink g (some prev) p fm =
      Except.ok (⟨g.nodes ++ [⟨"Sink_" ++ Nat.repr g.nodes.length, Operator.TargetOp p fm⟩],
        g.edges ++ [⟨prev, g.nodes.length, "()", "Serialized Format"⟩], g.sources⟩,
        g.nodes.length) := rfl

end PlanStepLemmas

/-- C9: `Plan<Processed>::apply` returns `EmptyPlan` on a node-less graph,
`DanglingApplyOperator` when the handle has no frontier, and
`WrongApplyOperator` for a `Source`/`Target`/`Serializer` operator; otherwise
it appends exactly one node and one edge from the current frontier to the new
node, and the returned frontier is the new node. -/
theorem plan_apply_characterization (g : PGraph) (last_node : Option Nat)
    (op : Operator) ( node_id_prefix : String) :
    (g.nodes.length = 0 →
      plan_apply g last_node op node_id_prefix = Except.error PlanError.EmptyPlan) ∧
    (g.nodes.length ≠ 0 → last_node = none →
      plan_apply g last_node op node_id_prefix =
        Except.error (PlanError.DanglingApplyOperator op)) ∧
    (∀ f, g.nodes.length ≠ 0 → last_node = some f → op.isReserved = true →
      plan_apply g last_node op node_id_prefix =
        Except.error (PlanError.WrongApplyOperator op)) ∧
    (∀ f, g.nodes.length ≠ 0 → last_node = some f → op.isReserved = false →
      plan_apply g last_node op node_id_prefix =
        Except.ok (⟨g.nodes ++
            [⟨ node_id_prefix ++ "_" ++ Nat.repr g.nodes.length, op⟩],
          g.edges ++ [mappingTupleEdge f g.nodes.length],
          g.sources⟩, g.nodes.length)) := by
  refine ⟨?_, ?_, ?_, ?_⟩
  · intro hz
    have hz' : g.nodes = [] := List.length_eq_zero.mp hz
    simp [plan_apply, hz']
  · intro hz hn
    subst hn
    have hz' : ¬ g.nodes = [] := fun h => hz (by simp [h])
    simp [plan_apply, hz']
  · intro f hz hs hres
    subst hs
    cases op <;> simp_all [plan_apply, Operator.isReserved]
  · intro f hz hs hres
    subst hs
    exact plan_apply_not_reserved_some_ok g f op node_id_prefix hz hres

section ConcreteInputs

/-- A subject map with template `"{id}"` producing an IRI. -/
def sm0 : SubjectMap := ⟨⟨"sm0", TermMapType.Template, "{id}", some TermKind.Iri⟩⟩

/-- A POM with two constant predicate maps and two reference object maps. -/
def pom0 : PredicateObjectMap :=
  ⟨[⟨⟨"pm0", TermMapType.Constant, "ex:a", some TermKind.Iri⟩⟩,
    ⟨⟨"pm1", TermMapType.Constant, "ex:b", some TermKind.Iri⟩⟩],
   [⟨⟨"om0", TermMapType.Reference, "x", some TermKind.Literal⟩, none, none⟩,
    ⟨⟨"om1", TermMapType.Reference, "y", some TermKind.Literal⟩, none, none⟩]⟩

/-- The extend pairs produced for `sm0` and `pom0` under prefix `tm_0`. -/
def pairs0 : List (String × Function) :=
  [("tm_0_p0-0", Function.Iri (Function.UriEncode (Function.Constant "ex:a"))),
   ("tm_0_p0-1", Function.Iri (Function.UriEncode (Function.Constant "ex:b"))),
   ("tm_0_o0-0", Function.Literal (Function.Reference "x")),
   ("tm_0_o0-1", Function.Literal (Function.Reference "y")),
   ("tm_0_sm", Function.Iri (Function.UriEncode (Function.Template "{id}")))]

/-- A parent unit with no POMs. -/
def tmA : TriplesMap :=
  { identifier := "TM_A", logical_source := "srcA"
    subject_map := ⟨⟨"smA", TermMapType.Template, "{id}", some TermKind.Iri⟩⟩
    graph_map := none, po_maps := [] }

/-- A unit whose object map references `TM_A` but has no join condition —
the C1 failure scenario. -/
def tmB_noJoinCond : TriplesMap :=
  { identifier := "TM_B", logical_source := "srcB"
    subject_map := ⟨⟨"smB", TermMapType.Template, "{bid}", some TermKind.Iri⟩⟩
    graph_map := none
    po_maps := [⟨[⟨⟨"pmB", TermMapType.Constant, "ex:p", some TermKind.Iri⟩⟩],
                 [⟨⟨"omB", TermMapType.Reference, "x", some TermKind.Literal⟩,
                   some "TM_A", none⟩]⟩] }

def docC1 : Document := ⟨[tmA, tmB_noJoinCond]⟩

/-- A unit whose object map references an identifier absent from the document —
the C3 failure scenario (with a join condition `c = p`). -/
def tmC3 : TriplesMap :=
  { identifier := "TM_C", logical_source := "srcC"
    subject_map := ⟨⟨"smC", TermMapType.Template, "{cid}", some TermKind.Iri⟩⟩
    graph_map := none
    po_maps := [⟨[⟨⟨"pmC", TermMapType.Constant, "ex:p", some TermKind.Iri⟩⟩],
                 [⟨⟨"omC", TermMapType.Reference, "x", some TermKind.Literal⟩,
                   some "NOPE", some ⟨["c"], ["p"]⟩⟩]⟩] }

def docC3 : Document := ⟨[tmC3]⟩

/-- The partial plan (the `Source → Project` fragment built in the first pass)
that `translate_to_algebra` returns for `docC3` after the second-pass error is
discarded. -/
def gC3 : PGraph :=
  ⟨[⟨"Source_0", Operator.SourceOp "srcC"⟩,
    ⟨"Projection_1", Operator.ProjectOp ["cid", "c", "p"]⟩],
   [⟨0, 1, "()", "MappingTuple"⟩], [0]⟩

/-- A unit whose subject map lacks a term type. -/
def tmNoTermType : TriplesMap :=
  { identifier := "TM_N", logical_source := "srcN"
    subject_map := ⟨⟨"smN", TermMapType.Template, "{id}", none⟩⟩
    graph_map := none
    po_maps := [⟨[⟨⟨"pmN", TermMapType.Constant, "ex:p", some TermKind.Iri⟩⟩],
                 [⟨⟨"omN", TermMapType.Reference, "nm", some TermKind.Literal⟩,
                   none, none⟩]⟩] }

def docC4 : Document := ⟨[tmNoTermType]⟩

/-- A unit whose subject map declares the unrecognized `Variable` term kind. -/
def tmVarKind : TriplesMap :=
  { identifier := "TM_V", logical_source := "srcV"
    subject_map := ⟨⟨"smV", TermMapType.Template, "{id}", some TermKind.Variable⟩⟩
    graph_map := none
    po_maps := [⟨[⟨⟨"pmV", TermMapType.Constant, "ex:p", some TermKind.Iri⟩⟩],
                 [⟨⟨"omV", TermMapType.Reference, "nm", some TermKind.Literal⟩,
                   none, none⟩]⟩] }

def docC4v : Document := ⟨[tmVarKind]⟩

end ConcreteInputs

theorem plan_apply_characterization_witness :
    plan_apply ⟨[⟨"Source_0", Operator.SourceOp "s"⟩], [], [0]⟩ (some 0)
        (Operator.ProjectOp []) "Projection" =
      Except.ok (⟨[⟨"Source_0", Operator.SourceOp "s"⟩,
                   ⟨"Projection_1", Operator.ProjectOp []⟩],
                  [mappingTupleEdge 0 1], [0]⟩, 1) := by
  have h := (plan_apply_characterization ⟨[⟨"Source_0", Operator.SourceOp "s"⟩], [], [0]⟩
    (some 0) (Operator.ProjectOp []) "Projection").2.2.2 0 (by decide) rfl (by decide)
  simpa using h

/-- C1 (code bug): on a document with an object map whose `parent_tm` is set
while `join_condition` is `None` and whose parent exists, translation does not
return a `MalformedJoin`-style error — it panics at
`om.join_condition.as_ref().unwrap()` (and a second-pass `Err` would anyway be
discarded by `let _ = … try_for_each`, see `translate_to_algebra`). -/
theorem translate_malformed_join_panics :
    translate_to_algebra docC1 = TransResult.panicked unwrapNoneMsg := by
  decide

/-- C3 (code bug): on a document whose object map references an identifier
absent from the lookup table, `add_join_related_ops` produces
`PlanError::AuxError("Parent triples map IRI is wrong: …")`, but
`translate_to_algebra` discards the second pass's `Result` (`let _ = …`) and
returns `Ok` with the partial first-pass plan instead of failing. -/
theorem translate_missing_parent_returns_ok :
    translate_to_algebra docC3 = TransResult.ok gC3 ∧
    (∀ e : PlanError, translate_to_algebra docC3 ≠ TransResult.err e) := by
  constructor
  · decide
  · intro e h
    have h1 : translate_to_algebra docC3 = TransResult.ok gC3 := by decide
    rw [h1] at h
    cases h

/-- C4 (counterexample): a term map whose `term_type` is absent, or is the
unrecognized `Variable` kind, makes function-tree construction panic
(`unwrap` / `panic!`), aborting translation instead of surfacing a
recoverable error in the translation `Result`. -/
theorem extract_extend_function_aborts :
    translate_to_algebra docC4 = TransResult.panicked unwrapNoneMsg ∧
    translate_to_algebra docC4v =
      TransResult.panicked "Unrecognized term kind Variable" := by
  constructor <;> decide

/-- C4 (amended): function-tree construction panics exactly when the term
type is absent or unrecognized; for Iri/Literal/BlankNode it returns a
function. -/
theorem extract_extend_function_panic_iff (t : TermMapInfo) :
    (∃ msg, extract_extend_function_from_term_map t = Except.error msg) ↔
      (t.term_type = none ∨ t.term_type = some TermKind.Variable) := by
  cases ht : t.term_type with
  | none => simp [extract_extend_function_from_term_map, ht]
  | some k => cases k <;> simp [extract_extend_function_from_term_map, ht]

/-- The attribute list of the `Project` operator the translator builds for a
triples map. -/
def projection_attributes_of (tm : TriplesMap) : List String :=
  match translate_projection_op tm with
  | Operator.ProjectOp attrs => attrs
  | _ => []

/-- The projection attribute set as worded by claim C2: subject ∪ graph ∪ per
POM predicate attributes ∪ object attributes, a parent-referencing object map
contributing exactly its join condition's child attributes. -/
def claimedProjectionAttrs (tm : TriplesMap) : List String :=
  tm.subject_map.tm_info.get_attributes ++
    (match tm.graph_map with
     | none => []
     | some gm => gm.tm_info.get_attributes) ++
    tm.po_maps.flatMap (fun pom =>
      pom.predicate_maps.flatMap (fun pm => pm.tm_info.get_attributes) ++
        pom.object_maps.flatMap (fun om =>
          match om.parent_tm, om.join_condition with
          | some _, some jc => jc.child_attributes
          | some _, none => []
          | none, _ => om.tm_info.get_attributes))

/-- The amended projection attribute set: an object map with a join condition
contributes its child AND parent attributes (never its own term-map
attributes); all other maps contribute their own attributes. -/
def amendedProjectionAttrs (tm : TriplesMap) : List String :=
  tm.subject_map.tm_info.get_attributes ++
    (match tm.graph_map with
     | none => []
     | some gm => gm.tm_info.get_attributes) ++
    tm.po_maps.flatMap (fun pom =>
      pom.predicate_maps.flatMap (fun pm => pm.tm_info.get_attributes) ++
        pom.object_maps.flatMap (fun om =>
          match om.join_condition with
          | some join_cond =>
              join_cond.child_attributes ++ join_cond.parent_attributes
          | none => om.tm_info.get_attributes))

/-- C2 (counterexample): for a triples map whose object map has join condition
`c = p`, the translated projection contains the parent attribute `"p"`,
which the claimed attribute set (child attributes only) excludes. -/
theorem translate_projection_includes_parent_attrs :
    "p" ∈ projection_attributes_of tmC3 ∧ "p" ∉ claimedProjectionAttrs tmC3 := by
  constructor <;> decide

/-- C2 (amended): the `Project` attribute set equals subject ∪ graph ∪, per
POM, predicate ∪ object attributes, where an object map with a join condition
contributes its child and parent join attributes and never its own term-map
attributes. -/
theorem translate_projection_attrs_amended (tm : TriplesMap) (a : String) :
    a ∈ projection_attributes_of tm ↔ a ∈ amendedProjectionAttrs tm := by
  simp only [projection_attributes_of, translate_projection_op,
    amendedProjectionAttrs, List.mem_append, List.mem_flatMap]
  constructor
  · rintro ((h | ⟨pom, hp, hrest⟩) | h)
    · exact Or.inl (Or.inl h)
    · exact Or.inr ⟨pom, hp, hrest.symm⟩
    · exact Or.inl (Or.inr h)
  · rintro ((h | h) | ⟨pom, hp, hrest⟩)
    · exact Or.inl (Or.inl h)
    · exact Or.inr h
    · exact Or.inl (Or.inr ⟨pom, hp, hrest.symm⟩)

theorem rbrace_not_mem_join_alias (idx : Nat) :
    '}' ∉ ("join_" ++ Nat.repr idx).data := by
  rw [String.data_append]
  intro h
  rcases List.mem_append.mp h with h1 | h2
  · revert h1
    decide
  · exact rbrace_not_mem_repr idx h2

/-- C5: processing a parent-referencing object map at position `om_idx` of POM
`pom_idx` in the unit with prefix `tm_<count>` adds a join node tagged with
the alias `join_<parent_sequence_index>`, rewrites every attribute of the
parent's subject map by prefixing it with that alias, and binds the synthetic
extend attribute `tm_<count>_o<pom_idx>-<om_idx>` to the function derived from
the alias-prefixed parent subject term map in the post-join extend node. -/
theorem process_join_om_spec
    (search_tm_plan_map : List (String × (Nat × TriplesMap × Nat)))
    (sm : SubjectMap) (count pom_idx om_idx : Nat) (pms : List PredicateMap)
    (om : ObjectMap) (frontier : Nat) (g g' : PGraph) (p : String) (idx : Nat)
    (ptm : TriplesMap) (other_frontier : Nat) (jc : JoinCondition)
    (hp : om.parent_tm = some p)
    (hs : hmLookup search_tm_plan_map p = some (idx, ptm, other_frontier))
    (hj : om.join_condition = some jc)
    (hr : process_join_om search_tm_plan_map sm ("tm_" ++ Nat.repr count) count
        pom_idx pms om_idx om frontier g = TResult.ok g') :
    ∃ (fn : Function) (pairs : List (String × Function)) (rest : List PlanNode),
      extract_extend_function_from_term_map
          (ptm.subject_map.tm_info.prefix_attributes ("join_" ++ Nat.repr idx)) =
        Except.ok fn ∧
      g'.nodes = g.nodes ++
        ⟨"Join_" ++ Nat.repr g.nodes.length,
         Operator.JoinOp ("join_" ++ Nat.repr idx) jc.child_attributes
           jc.parent_attributes⟩ ::
        ⟨"Extend" ++ "_" ++ Nat.repr (g.nodes.length + 1),
         Operator.ExtendOp pairs⟩ :: rest ∧
      hmLookup pairs
          ("tm_" ++ Nat.repr count ++ "_o" ++ Nat.repr pom_idx ++ "-" ++
            Nat.repr om_idx) = some fn ∧
      (ptm.subject_map.tm_info.prefix_attributes
          ("join_" ++ Nat.repr idx)).get_attributes =
        ptm.subject_map.tm_info.get_attributes.map
          (fun a => "join_" ++ Nat.repr idx ++ "_" ++ a) := by
  simp only [process_join_om, hp, hs, hj, plan_join] at hr
  cases hex : extract_extend_function_from_term_map
      (ptm.subject_map.tm_info.prefix_attributes ("join_" ++ Nat.repr idx)) with
  | error m =>
    rw [hex] at hr
    cases hr
  | ok fn =>
    simp only [hex] at hr
    cases hpairs : translate_extend_pairs ("tm_" ++ Nat.repr count) sm
        [(pom_idx, ⟨pms, [om]⟩)] with
    | error m =>
      rw [hpairs] at hr
      cases hr
    | ok pairs₀ =>
      simp [hpairs, plan_apply_extend_some_ok, plan_serialize_some_ok,
        plan_sink_some_ok] at hr
      cases hr
      refine ⟨fn,
        hmInsert pairs₀
          ("tm_" ++ Nat.repr count ++ "_o" ++ Nat.repr pom_idx ++ "-" ++
            Nat.repr om_idx) fn, ?_, rfl, ?_, ?_, ?_⟩
      · exact [⟨"Serialize_" ++ Nat.repr (g.nodes.length + 1 + 1),
          Operator.SerializerOp
            (extract_serializer_template [(pom_idx, ⟨pms, [om]⟩)]
              ("tm_" ++ Nat.repr count)) DataFormat.NT⟩,
          ⟨"Sink_" ++ Nat.repr (g.nodes.length + 1 + 1 + 1),
           Operator.TargetOp (Nat.repr count ++ "_output.nt") DataFormat.NT⟩]
      · simp [translate_serializer_op, file_target]
      · exact hmLookup_hmInsert _ _ _
      · exact get_attributes_prefix _ _ (rbrace_not_mem_join_alias idx)

/-- Concrete inputs for the join-processing witness: unit `tm_1` joins its
object map against parent `TM_A` (sequence index 0) on `pid = id`. -/
def smB : SubjectMap := ⟨⟨"smB", TermMapType.Template, "{bid}", some TermKind.Iri⟩⟩

def pmB : PredicateMap := ⟨⟨"pmB", TermMapType.Constant, "ex:p", some TermKind.Iri⟩⟩

def omJ : ObjectMap :=
  ⟨⟨"omB", TermMapType.Reference, "x", some TermKind.Literal⟩, some "TM_A",
   some ⟨["pid"], ["id"]⟩⟩

def searchW : List (String × (Nat × TriplesMap × Nat)) := [("TM_A", (0, tmA, 1))]

def gW : PGraph :=
  ⟨[⟨"Source_0", Operator.SourceOp "srcA"⟩,
    ⟨"Projection_1", Operator.ProjectOp ["id"]⟩,
    ⟨"Source_2", Operator.SourceOp "srcB"⟩,
    ⟨"Projection_3", Operator.ProjectOp ["bid", "pid", "id"]⟩],
   [⟨0, 1, "()", "MappingTuple"⟩, ⟨2, 3, "()", "MappingTuple"⟩], [0, 2]⟩

def gW' : PGraph :=
  ⟨[⟨"Source_0", Operator.SourceOp "srcA"⟩,
    ⟨"Projection_1", Operator.ProjectOp ["id"]⟩,
    ⟨"Source_2", Operator.SourceOp "srcB"⟩,
    ⟨"Projection_3", Operator.ProjectOp ["bid", "pid", "id"]⟩,
    ⟨"Join_4", Operator.JoinOp "join_0" ["pid"] ["id"]⟩,
    ⟨"Extend_5", Operator.ExtendOp
      [("tm_1_p0-0", Function.Iri (Function.UriEncode (Function.Constant "ex:p"))),
       ("tm_1_o0-0", Function.Iri (Function.UriEncode (Function.Template "{join_0_id}"))),
       ("tm_1_sm", Function.Iri (Function.UriEncode (Function.Template "{bid}")))]⟩,
    ⟨"Serialize_6",
     Operator.SerializerOp " ?tm_1_sm ?tm_1_p0-0 ?tm_1_o0-0.\n" DataFormat.NT⟩,
    ⟨"Sink_7", Operator.TargetOp "1_output.nt" DataFormat.NT⟩],
   [⟨0, 1, "()", "MappingTuple"⟩, ⟨2, 3, "()", "MappingTuple"⟩,
    ⟨3, 4, "()", "MappingTuple"⟩, ⟨1, 4, "()", "MappingTuple"⟩,
    ⟨4, 5, "()", "MappingTuple"⟩, ⟨5, 6, "()", "MappingTuple"⟩,
    ⟨6, 7, "()", "Serialized Format"⟩], [0, 2]⟩

theorem process_join_om_spec_witness :
    ∃ (fn : Function) (pairs : List (String × Function)) (rest : List PlanNode),
      extract_extend_function_from_term_map
          (tmA.subject_map.tm_info.prefix_attributes ("join_" ++ Nat.repr 0)) =
        Except.ok fn ∧
      gW'.nodes = gW.nodes ++
        ⟨"Join_" ++ Nat.repr gW.nodes.length,
         Operator.JoinOp ("join_" ++ Nat.repr 0)
           (JoinCondition.child_attributes ⟨["pid"], ["id"]⟩)
           (JoinCondition.parent_attributes ⟨["pid"], ["id"]⟩)⟩ ::
        ⟨"Extend" ++ "_" ++ Nat.repr (gW.nodes.length + 1),
         Operator.ExtendOp pairs⟩ :: rest ∧
      hmLookup pairs
          ("tm_" ++ Nat.repr 1 ++ "_o" ++ Nat.repr 0 ++ "-" ++ Nat.repr 0) =
        some fn ∧
      (tmA.subject_map.tm_info.prefix_attributes
          ("join_" ++ Nat.repr 0)).get_attributes =
        tmA.subject_map.tm_info.get_attributes.map
          (fun a => "join_" ++ Nat.repr 0 ++ "_" ++ a) :=
  process_join_om_spec searchW smB 1 0 0 [pmB] omJ 3 gW gW' "TM_A" 0 tmA 1
    ⟨["pid"], ["id"]⟩ rfl rfl rfl rfl

/-- C7: the serializer template is exactly one line per pair of each POM's
predicate-position × object-position Cartesian product, of the form
`" ?<prefix>_sm ?<prefix>_p<pom>-<i> ?<prefix>_o<pom>-<j>.\n"`, and those
names are exactly the keys synthesized by the extend stage
(`<prefix>_sm`, `<prefix>_p<pom>-<idx>`, `<prefix>_o<pom>-<idx>`). -/
theorem serializer_template_matches_extend_names (prefix_id : String)
    (sm : SubjectMap) (idx_poms : List (Nat × PredicateObjectMap))
    (pairs : List (String × Function))
    (h : translate_extend_pairs prefix_id sm idx_poms = Except.ok pairs) :
    extract_serializer_template idx_poms prefix_id =
      strConcat (serTemplateLines prefix_id idx_poms) ∧
    (∀ k, k ∈ pairs.map Prod.fst ↔ k ∈ extendKeyNames prefix_id idx_poms) :=
  ⟨extract_serializer_template_eq idx_poms prefix_id,
   translate_extend_pairs_ok_keys prefix_id sm idx_poms pairs h⟩

section FirstPassLemmas

/-- The nodes the first pass appends for the given triples maps, starting at
node index `n`: per map a `Source_<n>` node and a `Projection_<n+1>` node. -/
def fpNodes : List TriplesMap → Nat → List PlanNode
  | [], _ => []
  | tm :: rest, n =>
    ⟨"Source_" ++ Nat.repr n, Operator.SourceOp tm.logical_source⟩ ::
    ⟨"Projection" ++ "_" ++ Nat.repr (n + 1), translate_projection_op tm⟩ ::
    fpNodes rest (n + 2)

/-- The edges the first pass appends: `Source → Project` per map. -/
def fpEdges : List TriplesMap → Nat → List PEdge
  | [], _ => []
  | _ :: rest, n => mappingTupleEdge n (n + 1) :: fpEdges rest (n + 2)

/-- The source indices the first pass registers. -/
def fpSources : List TriplesMap → Nat → List Nat
  | [], _ => []
  | _ :: rest, n => n :: fpSources rest (n + 2)

/-- The (triples map, fragment frontier) pairs the first pass accumulates. -/
def fpPairs : List TriplesMap → Nat → List (TriplesMap × Nat)
  | [], _ => []
  | tm :: rest, n => (tm, n + 1) :: fpPairs rest (n + 2)

theorem translate_projection_op_eq (tm : TriplesMap) :
    translate_projection_op tm = Operator.ProjectOp (projection_attributes_of tm) := by
  simp [translate_projection_op, projection_attributes_of]

theorem plan_apply_project_some_ok (g : PGraph) (prev : Nat) (attrs : List String)
    (px : String) (hz : g.nodes.length ≠ 0) :
    plan_apply g (some prev) (Operator.ProjectOp attrs) px =
      Except.ok (⟨g.nodes ++
          [⟨px ++ "_" ++ Nat.repr g.nodes.length, Operator.ProjectOp attrs⟩],
        g.edges ++ [mappingTupleEdge prev g.nodes.length],
        g.sources⟩, g.nodes.length) :=
  plan_apply_not_reserved_some_ok g prev (Operator.ProjectOp attrs) px hz rfl

/-- The first pass always succeeds and appends exactly the
`Source → Project` fragments in document order. -/
theorem firstPassGo_eq : ∀ (tms : List TriplesMap) (g : PGraph)
    (acc : List (TriplesMap × Nat)),
    firstPassGo tms g acc = Except.ok
      (⟨g.nodes ++ fpNodes tms g.nodes.length,
        g.edges ++ fpEdges tms g.nodes.length,
        g.sources ++ fpSources tms g.nodes.length⟩,
       acc ++ fpPairs tms g.nodes.length) := by
  intro tms
  induction tms with
  | nil =>
    intro g acc
    simp [firstPassGo, fpNodes, fpEdges, fpSources, fpPairs]
  | cons tm rest ih =>
    intro g acc
    simp only [firstPassGo, plan_source, translate_source_op, translate_projection_op_eq]
    rw [plan_apply_project_some_ok _ _ _ _ (by simp)]
    simp only [List.length_append, List.length_cons, List.length_nil]
    rw [ih]
    simp only [fpNodes, fpEdges, fpSources, fpPairs, List.length_append,
      List.length_cons, List.length_nil, List.append_assoc, List.cons_append,
      List.nil_append, translate_projection_op_eq]

theorem fpNodes_length : ∀ (tms : List TriplesMap) (n : Nat),
    (fpNodes tms n).length = 2 * tms.length := by
  intro tms
  induction tms with
  | nil => intro n; rfl
  | cons tm rest ih =>
    intro n
    simp only [fpNodes, List.length_cons, ih]
    omega

end FirstPassLemmas

section SecondPassLemmas

theorem snd_mem_of_mem_enumFrom {α : Type} :
    ∀ (l : List α) (n : Nat) (p : Nat × α), p ∈ l.enumFrom n → p.2 ∈ l := by
  intro l
  induction l with
  | nil => intro n p h; cases h
  | cons x t ih =>
    intro n p h
    rcases List.mem_cons.mp h with h | h
    · subst h
      exact List.mem_cons_self x t
    · exact List.mem_cons_of_mem x (ih (n + 1) p h)

theorem snd_mem_of_mem_enum {α : Type} (l : List α) (p : Nat × α)
    (h : p ∈ l.enum) : p.2 ∈ l :=
  snd_mem_of_mem_enumFrom l 0 p h

theorem partition_all_false {α : Type} (q : α → Bool) :
    ∀ (l : List α), (∀ x ∈ l, q x = false) → l.partition q = ([], l) := by
  intro l
  induction l with
  | nil => intro _; rfl
  | cons x t ih =>
    intro h
    have hx := h x (List.mem_cons_self x t)
    have ht := ih (fun y hy => h y (List.mem_cons_of_mem x hy))
    simp [hx, List.partition_eq_filter_filter] at ht ⊢
    exact ht

/-- A document unit with no parent-referencing object map partitions into no
join-bearing POM and all its POMs (in order) as non-join ones. -/
theorem partition_no_ptm (poms : List PredicateObjectMap)
    (h : ∀ pom ∈ poms, ∀ om ∈ pom.object_maps, om.parent_tm = none) :
    partition_pom_join_nonjoin poms = ([], poms.enum) := by
  have hall : ∀ p ∈ poms.enum, (fun (q : Nat × PredicateObjectMap) =>
      q.2.contains_ptm) p = false := by
    intro p hp
    have hmem := snd_mem_of_mem_enum poms p hp
    simp only [PredicateObjectMap.contains_ptm, List.any_eq_false]
    intro om hom
    simp [h p.2 hmem om hom]
  simp only [partition_pom_join_nonjoin, partition_all_false _ _ hall]
  rfl

/-- Inversion of a successful `add_non_join_related_ops`: it appends exactly
an extend node, a serializer node with the POMs' template, and a sink node
targeting `<count>_output.nt` in N-Triples format, with the three chain
edges. -/
theorem anj_ok_shape (no_join_idx_poms : List (Nat × PredicateObjectMap))
    (sm : SubjectMap) (px : String) (g : PGraph) (frontier : Nat) (count : Nat)
    (g' : PGraph)
    (hr : add_non_join_related_ops no_join_idx_poms sm px g frontier count =
      TResult.ok g') :
    ∃ pairs, translate_extend_pairs px sm no_join_idx_poms = Except.ok pairs ∧
    g'.nodes = g.nodes ++
      [⟨"ExtendOp" ++ "_" ++ Nat.repr g.nodes.length, Operator.ExtendOp pairs⟩,
       ⟨"Serialize_" ++ Nat.repr (g.nodes.length + 1),
        Operator.SerializerOp (extract_serializer_template no_join_idx_poms px)
          DataFormat.NT⟩,
       ⟨"Sink_" ++ Nat.repr (g.nodes.length + 1 + 1),
        Operator.TargetOp (Nat.repr count ++ "_output.nt") DataFormat.NT⟩] ∧
    g'.edges = g.edges ++
      [mappingTupleEdge frontier g.nodes.length,
       mappingTupleEdge g.nodes.length (g.nodes.length + 1),
       ⟨g.nodes.length + 1, g.nodes.length + 1 + 1, "()", "Serialized Format"⟩] ∧
    g'.sources = g.sources := by
  simp only [add_non_join_related_ops, translate_extend_op] at hr
  cases hpairs : translate_extend_pairs px sm no_join_idx_poms with
  | error m =>
    rw [hpairs] at hr
    cases hr
  | ok pairs =>
    rw [hpairs] at hr
    by_cases hz : g.nodes.length = 0
    · have hz' : g.nodes = [] := List.length_eq_zero.mp hz
      simp [plan_apply, hz'] at hr
    · simp [plan_apply_extend_some_ok _ _ _ _ hz, plan_serialize_some_ok,
        plan_sink_some_ok, translate_serializer_op, file_target] at hr
      refine ⟨pairs, rfl, ?_, ?_, ?_⟩ <;> (rw [← hr]; try simp)

/-- `add_non_join_related_ops` on a nonempty graph never returns a discarded
`Err`: it either succeeds or panics in function-tree construction. -/
theorem anj_not_errored (no_join_idx_poms : List (Nat × PredicateObjectMap))
    (sm : SubjectMap) (px : String) (g : PGraph) (frontier : Nat) (count : Nat)
    (hz : g.nodes.length ≠ 0) (g' : PGraph) (e : PlanError) :
    add_non_join_related_ops no_join_idx_poms sm px g frontier count ≠
      TResult.errored g' e := by
  intro hr
  simp only [add_non_join_related_ops, translate_extend_op] at hr
  cases hpairs : translate_extend_pairs px sm no_join_idx_poms with
  | error m =>
    rw [hpairs] at hr
    cases hr
  | ok pairs =>
    rw [hpairs] at hr
    simp [plan_apply_extend_some_ok _ _ _ _ hz, plan_serialize_some_ok,
      plan_sink_some_ok] at hr

/-- A triples map with no parent-referencing object map. -/
def noPtmTm (tm : TriplesMap) : Prop :=
  ∀ pom ∈ tm.po_maps, ∀ om ∈ pom.object_maps, om.parent_tm = none

/-- For a unit with no parent-referencing object map and at least one POM, the
second-pass step appends exactly the extend/serialize/sink chain off the
unit's frontier. -/
theorem spstep_nojoin_ok (search_tm_plan_map : List (String × (Nat × TriplesMap × Nat)))
    (count : Nat) (tm : TriplesMap) (frontier : Nat) (g g' : PGraph)
    (hnop : noPtmTm tm) (hne : tm.po_maps ≠ [])
    (hr : secondPassStep search_tm_plan_map count tm frontier g = TResult.ok g') :
    ∃ pairs,
    g'.nodes = g.nodes ++
      [⟨"ExtendOp" ++ "_" ++ Nat.repr g.nodes.length, Operator.ExtendOp pairs⟩,
       ⟨"Serialize_" ++ Nat.repr (g.nodes.length + 1),
        Operator.SerializerOp
          (extract_serializer_template tm.po_maps.enum ("tm_" ++ Nat.repr count))
          DataFormat.NT⟩,
       ⟨"Sink_" ++ Nat.repr (g.nodes.length + 1 + 1),
        Operator.TargetOp (Nat.repr count ++ "_output.nt") DataFormat.NT⟩] ∧
    g'.edges = g.edges ++
      [mappingTupleEdge frontier g.nodes.length,
       mappingTupleEdge g.nodes.length (g.nodes.length + 1),
       ⟨g.nodes.length + 1, g.nodes.length + 1 + 1, "()", "Serialized Format"⟩] ∧
    g'.sources = g.sources := by
  simp only [secondPassStep, partition_no_ptm tm.po_maps hnop] at hr
  have henum : tm.po_maps.enum.isEmpty = false := by
    cases hpm : tm.po_maps with
    | nil => exact absurd hpm hne
    | cons a b => simp [List.enum, List.enumFrom, List.isEmpty, hpm]
  rw [henum] at hr
  simp only [List.isEmpty_nil, if_true, if_false, Bool.false_eq_true,
    TResult.thenOk] at hr
  cases hstep : add_non_join_related_ops tm.po_maps.enum tm.subject_map
      ("tm_" ++ Nat.repr count) g frontier count with
  | ok g₁ =>
    rw [hstep] at hr
    simp only at hr
    cases hr
    obtain ⟨pairs, _, hn, he, hs⟩ := anj_ok_shape _ _ _ _ _ _ _ hstep
    exact ⟨pairs, hn, he, hs⟩
  | errored g₁ e =>
    rw [hstep] at hr
    cases hr
  | panicked m =>
    rw [hstep] at hr
    cases hr

/-- The step for a unit with no parent-referencing object map either succeeds
or panics — it never contributes a (discarded) error. -/
theorem spstep_nojoin_not_errored (search_tm_plan_map : List (String × (Nat × TriplesMap × Nat)))
    (count : Nat) (tm : TriplesMap) (frontier : Nat) (g : PGraph)
    (hnop : noPtmTm tm) (hz : g.nodes.length ≠ 0) (g' : PGraph) (e : PlanError) :
    secondPassStep search_tm_plan_map count tm frontier g ≠ TResult.errored g' e := by
  intro hr
  simp only [secondPassStep, partition_no_ptm tm.po_maps hnop] at hr
  by_cases henum : tm.po_maps.enum.isEmpty
  · rw [if_pos henum] at hr
    simp [TResult.thenOk] at hr
  · rw [if_neg henum] at hr
    cases hstep : add_non_join_related_ops tm.po_maps.enum tm.subject_map
        ("tm_" ++ Nat.repr count) g frontier count with
    | ok g₁ =>
      rw [hstep] at hr
      simp [TResult.thenOk] at hr
    | errored g₁ e₁ =>
      exact anj_not_errored _ _ _ _ _ _ hz _ _ hstep
    | panicked m =>
      rw [hstep] at hr
      simp [TResult.thenOk] at hr

/-- The source/destination index pairs of the chain edges the second pass
appends for the given (unit, frontier) pairs, fresh nodes starting at `n`. -/
def spChainEdges : List (TriplesMap × Nat) → Nat → List (Nat × Nat)
  | [], _ => []
  | (_, f) :: rest, n =>
    (f, n) :: (n, n + 1) :: (n + 1, n + 2) :: spChainEdges rest (n + 3)

/-- Second pass over no-join units: appends per unit the three chain nodes
(extend, serializer, target kinds) and the three chain edges, and never stops
at an error. -/
theorem secondPassGo_nojoin (search_tm_plan_map : List (String × (Nat × TriplesMap × Nat))) :
    ∀ (rest : List (TriplesMap × Nat)) (count : Nat) (g g' : PGraph),
    (∀ p ∈ rest, noPtmTm p.1 ∧ p.1.po_maps ≠ []) →
    g.nodes.length ≠ 0 →
    secondPassGo search_tm_plan_map rest count g = TResult.ok g' →
    g'.nodes.map (fun nd => nd.operator.kind) =
      g.nodes.map (fun nd => nd.operator.kind) ++
        rest.flatMap (fun _ => [OpKind.extend, OpKind.serializer, OpKind.target]) ∧
    g'.edges.map (fun e => (e.src, e.dst)) =
      g.edges.map (fun e => (e.src, e.dst)) ++ spChainEdges rest g.nodes.length ∧
    g'.nodes.length = g.nodes.length + 3 * rest.length := by
  intro rest
  induction rest with
  | nil =>
    intro count g g' _ _ hr
    simp only [secondPassGo] at hr
    cases hr
    simp [spChainEdges]
  | cons p rest ih =>
    intro count g g' hprops hz hr
    obtain ⟨tm, f⟩ := p
    simp only [secondPassGo] at hr
    cases hstep : secondPassStep search_tm_plan_map count tm f g with
    | ok g₁ =>
      rw [hstep] at hr
      have hp := hprops (tm, f) (List.mem_cons_self _ _)
      obtain ⟨pairs, hn, he, _⟩ :=
        spstep_nojoin_ok search_tm_plan_map count tm f g g₁ hp.1 hp.2 hstep
      have hz₁ : g₁.nodes.length ≠ 0 := by
        rw [hn]
        simp
      obtain ⟨hkinds, hedges, hlen⟩ := ih (count + 1) g₁ g'
        (fun q hq => hprops q (List.mem_cons_of_mem _ hq)) hz₁ hr
      have hlen₁ : g₁.nodes.length = g.nodes.length + 3 := by
        rw [hn]
        simp
      refine ⟨?_, ?_, ?_⟩
      · rw [hkinds, hn]
        simp [Operator.kind, List.flatMap_cons]
      · rw [hedges, he, hlen₁]
        simp only [List.map_append, List.append_assoc, spChainEdges]
        simp [mappingTupleEdge]
      · simp only [List.length_cons]
        omega
    | errored g₁ e =>
      rw [hstep] at hr
      cases hr
    | panicked m =>
      rw [hstep] at hr
      cases hr

/-- A successful no-join step never shrinks the graph. -/
theorem spstep_nojoin_le (search_tm_plan_map : List (String × (Nat × TriplesMap × Nat)))
    (count : Nat) (tm : TriplesMap) (frontier : Nat) (g g' : PGraph)
    (hnop : noPtmTm tm)
    (hr : secondPassStep search_tm_plan_map count tm frontier g = TResult.ok g') :
    g.nodes.length ≤ g'.nodes.length := by
  simp only [secondPassStep, partition_no_ptm tm.po_maps hnop] at hr
  by_cases henum : tm.po_maps.enum.isEmpty
  · rw [if_pos henum] at hr
    simp only [List.isEmpty_nil, if_true, TResult.thenOk] at hr
    cases hr
    exact Nat.le_refl _
  · rw [if_neg henum] at hr
    cases hstep : add_non_join_related_ops tm.po_maps.enum tm.subject_map
        ("tm_" ++ Nat.repr count) g frontier count with
    | ok g₁ =>
      rw [hstep] at hr
      simp only [List.isEmpty_nil, if_true, TResult.thenOk] at hr
      cases hr
      obtain ⟨pairs, _, hn, _, _⟩ := anj_ok_shape _ _ _ _ _ _ _ hstep
      rw [hn]
      simp
    | errored g₁ e₁ =>
      rw [hstep] at hr
      cases hr
    | panicked m =>
      rw [hstep] at hr
      cases hr

theorem secondPassGo_nojoin_not_errored (search_tm_plan_map : List (String × (Nat × TriplesMap × Nat))) :
    ∀ (rest : List (TriplesMap × Nat)) (count : Nat) (g : PGraph),
    (∀ p ∈ rest, noPtmTm p.1) →
    g.nodes.length ≠ 0 →
    ∀ g' e, secondPassGo search_tm_plan_map rest count g ≠ TResult.errored g' e := by
  intro rest
  induction rest with
  | nil =>
    intro count g _ _ g' e hr
    simp only [secondPassGo] at hr
    cases hr
  | cons p rest ih =>
    intro count g hprops hz g' e hr
    obtain ⟨tm, f⟩ := p
    simp only [secondPassGo] at hr
    cases hstep : secondPassStep search_tm_plan_map count tm f g with
    | ok g₁ =>
      rw [hstep] at hr
      have hz₁ : g₁.nodes.length ≠ 0 := by
        have hle := spstep_nojoin_le search_tm_plan_map count tm f g g₁
          (hprops (tm, f) (List.mem_cons_self _ _)) hstep
        omega
      exact ih (count + 1) g₁
        (fun q hq => hprops q (List.mem_cons_of_mem _ hq)) hz₁ g' e hr
    | errored g₁ e₁ =>
      exact spstep_nojoin_not_errored search_tm_plan_map count tm f g
        (hprops (tm, f) (List.mem_cons_self _ _)) hz g₁ e₁ hstep
    | panicked m =>
      rw [hstep] at hr
      cases hr

theorem fpNodes_kinds : ∀ (tms : List TriplesMap) (n : Nat),
    (fpNodes tms n).map (fun nd => nd.operator.kind) =
      tms.flatMap (fun _ => [OpKind.source, OpKind.project]) := by
  intro tms
  induction tms with
  | nil => intro n; rfl
  | cons tm rest ih =>
    intro n
    simp only [fpNodes, List.map_cons, ih, List.flatMap_cons, List.cons_append,
      translate_projection_op_eq]
    rfl

theorem flatMap_const_range {α γ : Type} (c : List γ) :
    ∀ (l : List α), l.flatMap (fun _ => c) =
      (List.range l.length).flatMap (fun _ => c) := by
  intro l
  induction l with
  | nil => rfl
  | cons x t ih =>
    simp only [List.flatMap_cons, ih, List.length_cons, List.range_succ_eq_map,
      List.flatMap_cons, List.flatMap_map]

theorem fpEdges_pairs : ∀ (tms : List TriplesMap) (n₀ : Nat),
    (fpEdges tms (2 * n₀)).map (fun e => (e.src, e.dst)) =
      (List.range tms.length).map (fun i => (2 * (n₀ + i), 2 * (n₀ + i) + 1)) := by
  intro tms
  induction tms with
  | nil => intro n₀; rfl
  | cons tm rest ih =>
    intro n₀
    have h2 : 2 * n₀ + 2 = 2 * (n₀ + 1) := by omega
    simp only [fpEdges, List.map_cons, mappingTupleEdge, h2, ih,
      List.length_cons, List.range_succ_eq_map, List.map_cons, List.map_map]
    simp only [List.cons.injEq, Prod.mk.injEq]
    refine ⟨⟨by omega, by omega⟩, ?_⟩
    apply List.map_congr_left
    intro i _
    simp only [Function.comp, Prod.mk.injEq]
    omega

theorem spChainEdges_fpPairs : ∀ (tms : List TriplesMap) (n₀ b : Nat),
    spChainEdges (fpPairs tms (2 * n₀)) b =
      (List.range tms.length).flatMap (fun j =>
        [(2 * (n₀ + j) + 1, b + 3 * j), (b + 3 * j, b + 3 * j + 1),
         (b + 3 * j + 1, b + 3 * j + 2)]) := by
  intro tms
  induction tms with
  | nil => intro n₀ b; rfl
  | cons tm rest ih =>
    intro n₀ b
    have h2 : 2 * n₀ + 2 = 2 * (n₀ + 1) := by omega
    simp only [fpPairs, spChainEdges, h2, ih, List.length_cons,
      List.range_succ_eq_map, List.flatMap_cons, List.flatMap_map,
      List.cons_append, List.nil_append]
    simp only [List.cons.injEq, Prod.mk.injEq, true_and, and_true]
    and_intros <;>
      first
        | omega
        | (apply List.flatMap_congr
           intro j _
           simp only [Function.comp, List.cons.injEq, Prod.mk.injEq, true_and,
             and_true]
           omega)

/-- The operator kinds of the C6 plan shape: `N` `Source → Project` fragments
followed by `N` `Extend → Serialize → Sink` tails. -/
def chainNodeKinds (n : Nat) : List OpKind :=
  (List.range n).flatMap (fun _ => [OpKind.source, OpKind.project]) ++
    (List.range n).flatMap (fun _ => [OpKind.extend, OpKind.serializer, OpKind.target])

/-- The edges of the C6 plan shape: per chain `i` the path
`2i → 2i+1 → 2n+3i → 2n+3i+1 → 2n+3i+2`. -/
def chainEdgePairs (n : Nat) : List (Nat × Nat) :=
  (List.range n).map (fun i => (2 * i, 2 * i + 1)) ++
    (List.range n).flatMap (fun i =>
      [(2 * i + 1, 2 * n + 3 * i), (2 * n + 3 * i, 2 * n + 3 * i + 1),
       (2 * n + 3 * i + 1, 2 * n + 3 * i + 2)])

/-- The chain (connected component) a node index belongs to in the C6 shape. -/
def chainIdxOf (n k : Nat) : Nat :=
  if k < 2 * n then k / 2 else (k - 2 * n) / 3

theorem fst_mem_fpPairs : ∀ (tms : List TriplesMap) (n : Nat)
    (p : TriplesMap × Nat), p ∈ fpPairs tms n → p.1 ∈ tms := by
  intro tms
  induction tms with
  | nil => intro n p h; cases h
  | cons tm rest ih =>
    intro n p h
    rcases List.mem_cons.mp h with h | h
    · subst h
      exact List.mem_cons_self tm rest
    · exact List.mem_cons_of_mem tm (ih (n + 2) p h)

theorem fpPairs_length : ∀ (tms : List TriplesMap) (n : Nat),
    (fpPairs tms n).length = tms.length := by
  intro tms
  induction tms with
  | nil => intro n; rfl
  | cons tm rest ih =>
    intro n
    simp [fpPairs, ih]

end SecondPassLemmas

/-- C6: for every document with `N` triples maps, no parent-referencing object
maps and at least one POM per map, the produced plan graph consists of exactly
`N` chains `Source → Project → Extend → Serialize → Sink`: `5N` nodes with
exactly those operator kinds, the edge set is exactly the union of the `N`
four-edge chain paths, and every edge stays within one chain — no edge between
components. -/
theorem translate_no_join_chains (doc : Document) (g : PGraph)
    (hnop : ∀ tm ∈ doc.triples_maps, noPtmTm tm)
    (hne : ∀ tm ∈ doc.triples_maps, tm.po_maps ≠ [])
    (hok : translate_to_algebra doc = TransResult.ok g) :
    g.nodes.length = 5 * doc.triples_maps.length ∧
    g.nodes.map (fun nd => nd.operator.kind) =
      chainNodeKinds doc.triples_maps.length ∧
    g.edges.map (fun e => (e.src, e.dst)) =
      chainEdgePairs doc.triples_maps.length ∧
    (∀ e ∈ g.edges, chainIdxOf doc.triples_maps.length e.src =
      chainIdxOf doc.triples_maps.length e.dst) := by
  obtain ⟨tms⟩ := doc
  dsimp only at hnop hne hok ⊢
  have hfp := firstPassGo_eq tms PGraph.empty []
  simp only [PGraph.empty, List.nil_append, List.length_nil] at hfp
  simp only [translate_to_algebra, PGraph.empty, hfp] at hok
  by_cases hN : tms.length = 0
  · have htms : tms = [] := List.length_eq_zero.mp hN
    subst htms
    simp only [fpNodes, fpEdges, fpSources, fpPairs, secondPassGo] at hok
    cases hok
    refine ⟨rfl, rfl, rfl, ?_⟩
    intro e he
    cases he
  · have hlen2 : (fpNodes tms 0).length = 2 * tms.length := fpNodes_length tms 0
    have hz : (fpNodes tms 0).length ≠ 0 := by omega
    cases hsp : secondPassGo (mkSearchMap (fpPairs tms 0)) (fpPairs tms 0) 0
        ⟨fpNodes tms 0, fpEdges tms 0, fpSources tms 0⟩ with
    | ok g₁ =>
      rw [hsp] at hok
      simp only at hok
      cases hok
      obtain ⟨hkinds, hedges, hlen⟩ := secondPassGo_nojoin
        (mkSearchMap (fpPairs tms 0)) (fpPairs tms 0) 0 _ g
        (fun p hp => ⟨hnop p.1 (fst_mem_fpPairs _ _ _ hp),
          hne p.1 (fst_mem_fpPairs _ _ _ hp)⟩)
        hz hsp
      refine ⟨?_, ?_, ?_, ?_⟩
      · simp only at hlen
        rw [hlen, hlen2, fpPairs_length]
        omega
      · simp only at hkinds
        rw [hkinds, fpNodes_kinds, chainNodeKinds,
          flatMap_const_range _ tms,
          flatMap_const_range _ (fpPairs tms 0), fpPairs_length]
      · simp only at hedges
        rw [hedges, hlen2]
        rw [chainEdgePairs]
        congr 1
        · have := fpEdges_pairs tms 0
          simp only [Nat.mul_zero, Nat.zero_add] at this
          exact this
        · have := spChainEdges_fpPairs tms 0 (2 * tms.length)
          simp only [Nat.mul_zero, Nat.zero_add] at this
          exact this
      · intro e he
        have hmem : (e.src, e.dst) ∈ g.edges.map (fun e => (e.src, e.dst)) :=
          List.mem_map_of_mem _ he
        simp only at hedges
        rw [hedges, hlen2] at hmem
        rcases List.mem_append.mp hmem with hm | hm
        · have h1 := fpEdges_pairs tms 0
          simp only [Nat.mul_zero, Nat.zero_add] at h1
          rw [h1] at hm
          obtain ⟨i, hi, heq⟩ := List.mem_map.mp hm
          have hiN := List.mem_range.mp hi
          have hsrc : e.src = 2 * i := by
            have := congrArg Prod.fst heq
            simpa using this.symm
          have hdst : e.dst = 2 * i + 1 := by
            have := congrArg Prod.snd heq
            simpa using this.symm
          rw [hsrc, hdst]
          simp only [chainIdxOf, if_pos (by omega : 2 * i < 2 * tms.length),
            if_pos (by omega : 2 * i + 1 < 2 * tms.length)]
          omega
        · have h2 := spChainEdges_fpPairs tms 0 (2 * tms.length)
          simp only [Nat.mul_zero, Nat.zero_add] at h2
          rw [h2] at hm
          obtain ⟨i, hi, hmem3⟩ := List.mem_flatMap.mp hm
          have hiN := List.mem_range.mp hi
          rcases List.mem_cons.mp hmem3 with heq | hmem3
          · have hsrc : e.src = 2 * i + 1 := by
              have := congrArg Prod.fst heq
              simpa using this
            have hdst : e.dst = 2 * tms.length + 3 * i := by
              have := congrArg Prod.snd heq
              simpa using this
            rw [hsrc, hdst]
            simp only [chainIdxOf,
              if_pos (by omega : 2 * i + 1 < 2 * tms.length),
              if_neg (by omega : ¬ 2 * tms.length + 3 * i < 2 * tms.length)]
            omega
          · rcases List.mem_cons.mp hmem3 with heq | hmem3
            · have hsrc : e.src = 2 * tms.length + 3 * i := by
                have := congrArg Prod.fst heq
                simpa using this
              have hdst : e.dst = 2 * tms.length + 3 * i + 1 := by
                have := congrArg Prod.snd heq
                simpa using this
              rw [hsrc, hdst]
              simp only [chainIdxOf,
                if_neg (by omega : ¬ 2 * tms.length + 3 * i < 2 * tms.length),
                if_neg (by omega : ¬ 2 * tms.length + 3 * i + 1 < 2 * tms.length)]
              omega
            · rcases List.mem_cons.mp hmem3 with heq | hmem3
              · have hsrc : e.src = 2 * tms.length + 3 * i + 1 := by
                  have := congrArg Prod.fst heq
                  simpa using this
                have hdst : e.dst = 2 * tms.length + 3 * i + 2 := by
                  have := congrArg Prod.snd heq
                  simpa using this
                rw [hsrc, hdst]
                simp only [chainIdxOf,
                  if_neg (by omega : ¬ 2 * tms.length + 3 * i + 1 < 2 * tms.length),
                  if_neg (by omega : ¬ 2 * tms.length + 3 * i + 2 < 2 * tms.length)]
                omega
              · cases hmem3
    | errored g₁ e =>
      exfalso
      exact secondPassGo_nojoin_not_errored
        (mkSearchMap (fpPairs tms 0)) (fpPairs tms 0) 0 _
        (fun p hp => hnop p.1 (fst_mem_fpPairs _ _ _ hp)) hz g₁ e hsp
    | panicked m =>
      rw [hsp] at hok
      cases hok

/-- The graph translated from a document consisting only of `tmA` (which has
no POM): a bare `Source → Project` fragment. -/
def gA : PGraph :=
  ⟨[⟨"Source_0", Operator.SourceOp "srcA"⟩,
    ⟨"Projection_1", Operator.ProjectOp ["id"]⟩],
   [⟨0, 1, "()", "MappingTuple"⟩], [0]⟩

/-- C6 (counterexample): a document with one triples map and no
parent-referencing object map whose unit has no POM yields a two-node
`Source → Project` component, not a five-node chain — the claim fails for
units with an empty POM list. -/
theorem translate_no_join_chains_counterexample :
    translate_to_algebra ⟨[tmA]⟩ = TransResult.ok gA ∧
    gA.nodes.length ≠ 5 * (1 : Nat) := by
  constructor <;> decide

def tmW1 : TriplesMap :=
  { identifier := "W1", logical_source := "s1"
    subject_map := ⟨⟨"smW1", TermMapType.Template, "{id}", some TermKind.Iri⟩⟩
    graph_map := none
    po_maps := [⟨[⟨⟨"pmW1", TermMapType.Constant, "ex:n", some TermKind.Iri⟩⟩],
                 [⟨⟨"omW1", TermMapType.Reference, "name", some TermKind.Literal⟩,
                   none, none⟩]⟩] }

def tmW2 : TriplesMap :=
  { identifier := "W2", logical_source := "s2"
    subject_map := ⟨⟨"smW2", TermMapType.Template, "{k}", some TermKind.Iri⟩⟩
    graph_map := none
    po_maps := [⟨[⟨⟨"pmW2", TermMapType.Constant, "ex:m", some TermKind.Iri⟩⟩],
                 [⟨⟨"omW2", TermMapType.Reference, "v", some TermKind.Literal⟩,
                   none, none⟩]⟩] }

/-- The plan translated from `⟨[tmW1, tmW2]⟩`: two independent five-node
chains. -/
def gC6w : PGraph :=
  ⟨[⟨"Source_0", Operator.SourceOp "s1"⟩,
    ⟨"Projection_1", Operator.ProjectOp ["id", "name"]⟩,
    ⟨"Source_2", Operator.SourceOp "s2"⟩,
    ⟨"Projection_3", Operator.ProjectOp ["k", "v"]⟩,
    ⟨"ExtendOp_4", Operator.ExtendOp
      [("tm_0_p0-0", Function.Iri (Function.UriEncode (Function.Constant "ex:n"))),
       ("tm_0_o0-0", Function.Literal (Function.Reference "name")),
       ("tm_0_sm", Function.Iri (Function.UriEncode (Function.Template "{id}")))]⟩,
    ⟨"Serialize_5",
     Operator.SerializerOp " ?tm_0_sm ?tm_0_p0-0 ?tm_0_o0-0.\n" DataFormat.NT⟩,
    ⟨"Sink_6", Operator.TargetOp "0_output.nt" DataFormat.NT⟩,
    ⟨"ExtendOp_7", Operator.ExtendOp
      [("tm_1_p0-0", Function.Iri (Function.UriEncode (Function.Constant "ex:m"))),
       ("tm_1_o0-0", Function.Literal (Function.Reference "v")),
       ("tm_1_sm", Function.Iri (Function.UriEncode (Function.Template "{k}")))]⟩,
    ⟨"Serialize_8",
     Operator.SerializerOp " ?tm_1_sm ?tm_1_p0-0 ?tm_1_o0-0.\n" DataFormat.NT⟩,
    ⟨"Sink_9", Operator.TargetOp "1_output.nt" DataFormat.NT⟩],
   [⟨0, 1, "()", "MappingTuple"⟩, ⟨2, 3, "()", "MappingTuple"⟩,
    ⟨1, 4, "()", "MappingTuple"⟩, ⟨4, 5, "()", "MappingTuple"⟩,
    ⟨5, 6, "()", "Serialized Format"⟩, ⟨3, 7, "()", "MappingTuple"⟩,
    ⟨7, 8, "()", "MappingTuple"⟩, ⟨8, 9, "()", "Serialized Format"⟩],
   [0, 2]⟩

theorem translate_no_join_chains_witness :
    gC6w.nodes.length = 5 * (Document.mk [tmW1, tmW2]).triples_maps.length ∧
    gC6w.nodes.map (fun nd => nd.operator.kind) =
      chainNodeKinds (Document.mk [tmW1, tmW2]).triples_maps.length ∧
    gC6w.edges.map (fun e => (e.src, e.dst)) =
      chainEdgePairs (Document.mk [tmW1, tmW2]).triples_maps.length ∧
    (∀ e ∈ gC6w.edges,
      chainIdxOf (Document.mk [tmW1, tmW2]).triples_maps.length e.src =
        chainIdxOf (Document.mk [tmW1, tmW2]).triples_maps.length e.dst) :=
  translate_no_join_chains ⟨[tmW1, tmW2]⟩ gC6w
    (by simp only [noPtmTm]; decide) (by decide) (by decide)

section C8Lemmas

/-- Whether a node is a file target with the given path. -/
def isTargetWithPath (q : String) (nd : PlanNode) : Bool :=
  match nd.operator with
  | Operator.TargetOp pth _ => pth == q
  | _ => false

/-- The number of target (sink) nodes with the given file path. -/
def countTargetsPath (g : PGraph) (q : String) : Nat :=
  (g.nodes.filter (isTargetWithPath q)).length

/-- The number of branches (sinks) a unit produces: one for its non-join POMs
(if any) plus one per parent-referencing object map. -/
def tmBranchCount (tm : TriplesMap) : Nat :=
  (if (partition_pom_join_nonjoin tm.po_maps).2.isEmpty then 0 else 1) +
    ((partition_pom_join_nonjoin tm.po_maps).1.map
      (fun p => p.2.object_maps.length)).sum

/-- Node index `f` holds a projection node. -/
def ProjAt (g : PGraph) (f : Nat) : Prop :=
  ∃ nd, g.nodes[f]? = some nd ∧ nd.operator.kind = OpKind.project

/-- Every fragment recorded in the lookup table has a projection frontier. -/
def SearchOk (search : List (String × (Nat × TriplesMap × Nat))) (g : PGraph) : Prop :=
  ∀ k idx ptm f, hmLookup search k = some (idx, ptm, f) → ProjAt g f

/-- Every edge leaves a non-target node: target (sink) nodes are terminal. -/
def EdgeSrcOk (g : PGraph) : Prop :=
  ∀ e ∈ g.edges, ∃ nd, g.nodes[e.src]? = some nd ∧
    nd.operator.kind ≠ OpKind.target

theorem getElem?_append_of_some {α : Type} (l Δ : List α) (k : Nat) (x : α)
    (h : l[k]? = some x) : (l ++ Δ)[k]? = some x := by
  have hk : k < l.length := (List.getElem?_eq_some.mp h).1
  rw [List.getElem?_append, if_pos hk]
  exact h

theorem projAt_append (nodes Δ : List PlanNode) (E E' : List PEdge)
    (S S' : List Nat) (f : Nat) (h : ProjAt ⟨nodes, E, S⟩ f) :
    ProjAt ⟨nodes ++ Δ, E', S'⟩ f := by
  obtain ⟨nd, hnd, hk⟩ := h
  exact ⟨nd, getElem?_append_of_some _ _ _ _ hnd, hk⟩

theorem searchOk_append (search : List (String × (Nat × TriplesMap × Nat)))
    (nodes Δ : List PlanNode) (E E' : List PEdge) (S S' : List Nat)
    (h : SearchOk search ⟨nodes, E, S⟩) : SearchOk search ⟨nodes ++ Δ, E', S'⟩ := by
  intro k idx ptm f hl
  exact projAt_append nodes Δ E E' S S' f (h k idx ptm f hl)

/-- Folding `thenOk` steps over a non-`ok` accumulator is the identity. -/
theorem foldl_thenOk_stuck {β : Type} (f : β → PGraph → TResult) :
    ∀ (xs : List β) (r : TResult), (∀ g, r ≠ TResult.ok g) →
      xs.foldl (fun acc q => acc.thenOk (fun g => f q g)) r = r := by
  intro xs
  induction xs with
  | nil => intro r _; rfl
  | cons x t ih =>
    intro r hr
    have hstep : r.thenOk (fun g => f x g) = r := by
      cases r with
      | ok g => exact absurd rfl (hr g)
      | errored g e => rfl
      | panicked m => rfl
    simp only [List.foldl_cons, hstep]
    exact ih r hr

theorem hmInsert_mem {α : Type} :
    ∀ (m : List (String × α)) (k : String) (v : α) (x : String × α),
      x ∈ hmInsert m k v → x ∈ m ∨ x = (k, v) := by
  intro m
  induction m with
  | nil =>
    intro k v x hx
    simp [hmInsert] at hx
    exact Or.inr hx
  | cons hd tl ih =>
    intro k v x hx
    by_cases h : hd.1 = k
    · simp only [hmInsert, h, if_true] at hx
      rcases List.mem_cons.mp hx with hx | hx
      · exact Or.inr hx
      · exact Or.inl (List.mem_cons_of_mem hd hx)
    · simp only [hmInsert, h, if_false] at hx
      rcases List.mem_cons.mp hx with hx | hx
      · exact Or.inl (hx ▸ List.mem_cons_self hd tl)
      · rcases ih k v x hx with hx | hx
        · exact Or.inl (List.mem_cons_of_mem hd hx)
        · exact Or.inr hx

theorem hmLookup_mem {α : Type} (m : List (String × α)) (k : String) (v : α)
    (h : hmLookup m k = some v) : (k, v) ∈ m := by
  simp only [hmLookup, Option.map_eq_some'] at h
  obtain ⟨p, hp, hv⟩ := h
  have hmem := List.mem_of_find?_eq_some hp
  have hkey := List.find?_some hp
  have : p.1 = k := by simpa using hkey
  have : p = (k, v) := by
    cases p
    simp_all
  exact this ▸ hmem

theorem foldl_hmInsert_mem {α : Type} :
    ∀ (l : List (String × α)) (m : List (String × α)) (x : String × α),
      x ∈ l.foldl (fun acc p => hmInsert acc p.1 p.2) m → x ∈ m ∨ x ∈ l := by
  intro l
  induction l with
  | nil => intro m x hx; exact Or.inl hx
  | cons hd tl ih =>
    intro m x hx
    simp only [List.foldl_cons] at hx
    rcases ih _ x hx with hx | hx
    · rcases hmInsert_mem m hd.1 hd.2 x hx with hx | hx
      · exact Or.inl hx
      · right
        rw [hx]
        exact List.mem_cons_self hd tl
    · exact Or.inr (List.mem_cons_of_mem hd hx)

/-- A successful `mkSearchMap` lookup returns the frontier of one of the
recorded pairs. -/
theorem mkSearchMap_lookup_frontier (pairs : List (TriplesMap × Nat))
    (k : String) (idx : Nat) (ptm : TriplesMap) (f : Nat)
    (h : hmLookup (mkSearchMap pairs) k = some (idx, ptm, f)) :
    (ptm, f) ∈ pairs := by
  have hmem := hmLookup_mem _ _ _ h
  simp only [mkSearchMap] at hmem
  rcases foldl_hmInsert_mem _ _ _ hmem with hx | hx
  · cases hx
  · obtain ⟨q, hq, heq⟩ := List.mem_map.mp hx
    have hq2 := snd_mem_of_mem_enum pairs q hq
    have : q.2 = (ptm, f) := by
      have h1 := congrArg (fun r => r.2.1) heq
      have h2 := congrArg (fun r => r.2.2.2) heq
      cases hq2' : q.2
      simp_all
    rw [← this]
    exact hq2

theorem getElem?_append_zero {α : Type} (l : List α) (a : α) (t : List α) :
    (l ++ a :: t)[l.length]? = some a := by
  rw [List.getElem?_append_right (Nat.le_refl _)]
  simp

theorem getElem?_append_one {α : Type} (l : List α) (a b : α) (t : List α) :
    (l ++ a :: b :: t)[l.length + 1]? = some b := by
  rw [List.getElem?_append_right (by omega)]
  have h : l.length + 1 - l.length = 1 := by omega
  rw [h]
  simp

theorem getElem?_append_two {α : Type} (l : List α) (a b c : α) (t : List α) :
    (l ++ a :: b :: c :: t)[l.length + 1 + 1]? = some c := by
  rw [List.getElem?_append_right (by omega)]
  have h : l.length + 1 + 1 - l.length = 2 := by omega
  rw [h]
  simp

/-- C8 shape of one successful join branch: it appends a join, extend,
serializer and a fresh sink node targeting `<count>_output.nt` (N-Triples),
its five new edges all leaving non-target nodes. -/
theorem pjo_c8 (search_tm_plan_map : List (String × (Nat × TriplesMap × Nat)))
    (sm : SubjectMap) (prefix_id : String) (count pom_idx om_idx : Nat)
    (pms : List PredicateMap) (om : ObjectMap) (frontier : Nat) (g g' : PGraph)
    (hf : ProjAt g frontier) (hsearch : SearchOk search_tm_plan_map g)
    (hr : process_join_om search_tm_plan_map sm prefix_id count pom_idx pms
      om_idx om frontier g = TResult.ok g') :
    ∃ (Δ : List PlanNode) (Δe : List PEdge),
      g'.nodes = g.nodes ++ Δ ∧ g'.edges = g.edges ++ Δe ∧
      g'.sources = g.sources ∧
      (∀ q, (Δ.filter (isTargetWithPath q)).length =
        if (Nat.repr count ++ "_output.nt") = q then 1 else 0) ∧
      (∀ nd ∈ Δ, ∀ pth fm, nd.operator = Operator.TargetOp pth fm →
        fm = DataFormat.NT ∧ pth = Nat.repr count ++ "_output.nt") ∧
      (∀ e ∈ Δe, ∃ nd, (g.nodes ++ Δ)[e.src]? = some nd ∧
        nd.operator.kind ≠ OpKind.target) := by
  cases hp : om.parent_tm with
  | none =>
    simp only [process_join_om, hp] at hr
    cases hr
  | some p =>
    simp only [process_join_om, hp] at hr
    cases hs : hmLookup search_tm_plan_map p with
    | none =>
      rw [hs] at hr
      cases hr
    | some v =>
      obtain ⟨idx, ptm, other_frontier⟩ := v
      simp only [hs] at hr
      cases hj : om.join_condition with
      | none =>
        rw [hj] at hr
        cases hr
      | some jc =>
        simp only [hj, plan_join] at hr
        cases hex : extract_extend_function_from_term_map
            (ptm.subject_map.tm_info.prefix_attributes ("join_" ++ Nat.repr idx)) with
        | error m =>
          rw [hex] at hr
          cases hr
        | ok fn =>
          simp only [hex] at hr
          cases hpairs : translate_extend_pairs prefix_id sm
              [(pom_idx, ⟨pms, [om]⟩)] with
          | error m =>
            rw [hpairs] at hr
            cases hr
          | ok pairs₀ =>
            simp [hpairs, plan_apply_extend_some_ok, plan_serialize_some_ok,
              plan_sink_some_ok] at hr
            obtain ⟨fnd, hfnd, hflk⟩ := hf
            refine ⟨[⟨"Join_" ++ Nat.repr g.nodes.length,
                Operator.JoinOp ("join_" ++ Nat.repr idx) jc.child_attributes
                  jc.parent_attributes⟩,
              ⟨"Extend" ++ "_" ++ Nat.repr (g.nodes.length + 1),
               Operator.ExtendOp (hmInsert pairs₀
                 (prefix_id ++ "_o" ++ Nat.repr pom_idx ++ "-" ++ Nat.repr om_idx)
                 fn)⟩,
              ⟨"Serialize_" ++ Nat.repr (g.nodes.length + 1 + 1),
               Operator.SerializerOp
                 (extract_serializer_template [(pom_idx, ⟨pms, [om]⟩)] prefix_id)
                 DataFormat.NT⟩,
              ⟨"Sink_" ++ Nat.repr (g.nodes.length + 1 + 1 + 1),
               Operator.TargetOp (Nat.repr count ++ "_output.nt") DataFormat.NT⟩],
              [mappingTupleEdge frontier g.nodes.length,
               mappingTupleEdge other_frontier g.nodes.length,
               mappingTupleEdge g.nodes.length (g.nodes.length + 1),
               mappingTupleEdge (g.nodes.length + 1) (g.nodes.length + 1 + 1),
               ⟨g.nodes.length + 1 + 1, g.nodes.length + 1 + 1 + 1, "()",
                "Serialized Format"⟩],
              ?_, ?_, ?_, ?_, ?_, ?_⟩
            · rw [← hr]
              try simp [translate_serializer_op, file_target]
            · rw [← hr]
              try simp [translate_serializer_op, file_target, mappingTupleEdge]
            · rw [← hr]
            · intro q
              by_cases hq : (Nat.repr count ++ "_output.nt") = q
              · simp [isTargetWithPath, List.filter, hq]
              · have hq' : ((Nat.repr count ++ "_output.nt") == q) = false := by
                  simpa using hq
                simp [isTargetWithPath, List.filter, hq', hq]
            · intro nd hnd pth fm hop
              rcases List.mem_cons.mp hnd with h1 | hnd
              · rw [h1] at hop
                cases hop
              · rcases List.mem_cons.mp hnd with h1 | hnd
                · rw [h1] at hop
                  cases hop
                · rcases List.mem_cons.mp hnd with h1 | hnd
                  · rw [h1] at hop
                    cases hop
                  · rcases List.mem_cons.mp hnd with h1 | hnd
                    · rw [h1] at hop
                      cases hop
                      exact ⟨rfl, rfl⟩
                    · cases hnd
            · intro e he
              have hof := hsearch p idx ptm other_frontier hs
              obtain ⟨ofnd, hofnd, hofk⟩ := hof
              rcases List.mem_cons.mp he with h1 | he
              · subst h1
                exact ⟨fnd, getElem?_append_of_some _ _ _ _ hfnd, by
                  rw [hflk]; decide⟩
              · rcases List.mem_cons.mp he with h1 | he
                · subst h1
                  exact ⟨ofnd, getElem?_append_of_some _ _ _ _ hofnd, by
                    rw [hofk]; decide⟩
                · rcases List.mem_cons.mp he with h1 | he
                  · subst h1
                    exact ⟨_, getElem?_append_zero g.nodes _ _,
                      by simp [Operator.kind]⟩
                  · rcases List.mem_cons.mp he with h1 | he
                    · subst h1
                      exact ⟨_, getElem?_append_one g.nodes _ _ _,
                        by simp [Operator.kind]⟩
                    · rcases List.mem_cons.mp he with h1 | he
                      · subst h1
                        exact ⟨_, getElem?_append_two g.nodes _ _ _ _,
                          by simp [Operator.kind]⟩
                      · cases he

/-- C8 shape of a successful non-join branch. -/
theorem anj_c8 (no_join_idx_poms : List (Nat × PredicateObjectMap))
    (sm : SubjectMap) (px : String) (g : PGraph) (frontier : Nat) (count : Nat)
    (g' : PGraph) (hf : ProjAt g frontier)
    (hr : add_non_join_related_ops no_join_idx_poms sm px g frontier count =
      TResult.ok g') :
    ∃ (Δ : List PlanNode) (Δe : List PEdge),
      g'.nodes = g.nodes ++ Δ ∧ g'.edges = g.edges ++ Δe ∧
      g'.sources = g.sources ∧
      (∀ q, (Δ.filter (isTargetWithPath q)).length =
        if (Nat.repr count ++ "_output.nt") = q then 1 else 0) ∧
      (∀ nd ∈ Δ, ∀ pth fm, nd.operator = Operator.TargetOp pth fm →
        fm = DataFormat.NT ∧ pth = Nat.repr count ++ "_output.nt") ∧
      (∀ e ∈ Δe, ∃ nd, (g.nodes ++ Δ)[e.src]? = some nd ∧
        nd.operator.kind ≠ OpKind.target) := by
  obtain ⟨pairs, _, hn, he, hs⟩ := anj_ok_shape _ _ _ _ _ _ _ hr
  obtain ⟨fnd, hfnd, hflk⟩ := hf
  refine ⟨_, _, hn, he, hs, ?_, ?_, ?_⟩
  · intro q
    by_cases hq : (Nat.repr count ++ "_output.nt") = q
    · simp [isTargetWithPath, List.filter, hq]
    · have hq' : ((Nat.repr count ++ "_output.nt") == q) = false := by
        simpa using hq
      simp [isTargetWithPath, List.filter, hq', hq]
  · intro nd hnd pth fm hop
    rcases List.mem_cons.mp hnd with h1 | hnd
    · rw [h1] at hop
      cases hop
    · rcases List.mem_cons.mp hnd with h1 | hnd
      · rw [h1] at hop
        cases hop
      · rcases List.mem_cons.mp hnd with h1 | hnd
        · rw [h1] at hop
          cases hop
          exact ⟨rfl, rfl⟩
        · cases hnd
  · intro e he
    rcases List.mem_cons.mp he with h1 | he
    · subst h1
      exact ⟨fnd, getElem?_append_of_some _ _ _ _ hfnd, by rw [hflk]; decide⟩
    · rcases List.mem_cons.mp he with h1 | he
      · subst h1
        exact ⟨_, getElem?_append_zero g.nodes _ _, by simp [Operator.kind]⟩
      · rcases List.mem_cons.mp he with h1 | he
        · subst h1
          exact ⟨_, getElem?_append_one g.nodes _ _ _, by simp [Operator.kind]⟩
        · cases he

/-- C8 shape of the inner loop of `add_join_related_ops` over the
(enumerated) object maps of one join-bearing POM. -/
theorem ajOms_c8 (search_tm_plan_map : List (String × (Nat × TriplesMap × Nat)))
    (sm : SubjectMap) (prefix_id : String) (count pom_idx : Nat)
    (pms : List PredicateMap) :
    ∀ (oms : List (Nat × ObjectMap)) (frontier : Nat) (g g' : PGraph),
    ProjAt g frontier → SearchOk search_tm_plan_map g →
    (oms.foldl (fun acc₂ q =>
        acc₂.thenOk (fun g₁ =>
          process_join_om search_tm_plan_map sm prefix_id count pom_idx
            pms q.1 q.2 frontier g₁))
      (TResult.ok g)) = TResult.ok g' →
    ∃ (Δ : List PlanNode) (Δe : List PEdge),
      g'.nodes = g.nodes ++ Δ ∧ g'.edges = g.edges ++ Δe ∧
      g'.sources = g.sources ∧
      (∀ q, (Δ.filter (isTargetWithPath q)).length =
        if (Nat.repr count ++ "_output.nt") = q then oms.length else 0) ∧
      (∀ nd ∈ Δ, ∀ pth fm, nd.operator = Operator.TargetOp pth fm →
        fm = DataFormat.NT ∧ pth = Nat.repr count ++ "_output.nt") ∧
      (∀ e ∈ Δe, ∃ nd, (g.nodes ++ Δ)[e.src]? = some nd ∧
        nd.operator.kind ≠ OpKind.target) := by
  intro oms
  induction oms with
  | nil =>
    intro frontier g g' _ _ hr
    simp only [List.foldl_nil] at hr
    cases hr
    refine ⟨[], [], by simp, by simp, rfl, ?_, ?_, ?_⟩
    · intro q
      by_cases hq : (Nat.repr count ++ "_output.nt") = q <;> simp [hq]
    · intro nd hnd
      cases hnd
    · intro e he
      cases he
  | cons x t ih =>
    intro frontier g g' hf hsearch hr
    simp only [List.foldl_cons] at hr
    have hhead : (TResult.ok g).thenOk (fun g₁ =>
        process_join_om search_tm_plan_map sm prefix_id count pom_idx pms
          x.1 x.2 frontier g₁) =
        process_join_om search_tm_plan_map sm prefix_id count pom_idx pms
          x.1 x.2 frontier g := rfl
    rw [hhead] at hr
    cases hpjo : process_join_om search_tm_plan_map sm prefix_id count pom_idx
        pms x.1 x.2 frontier g with
    | ok g₁ =>
      rw [hpjo] at hr
      obtain ⟨Δ₁, Δe₁, hn₁, he₁, hs₁, hc₁, ht₁, hn₁e⟩ :=
        pjo_c8 _ _ _ _ _ _ _ _ _ _ _ hf hsearch hpjo
      have hf₁ : ProjAt g₁ frontier := by
        obtain ⟨fnd, hfnd, hfk⟩ := hf
        refine ⟨fnd, ?_, hfk⟩
        rw [hn₁]
        exact getElem?_append_of_some _ _ _ _ hfnd
      have hsearch₁ : SearchOk search_tm_plan_map g₁ := by
        intro k idx ptm f hl
        obtain ⟨fnd, hfnd, hfk⟩ := hsearch k idx ptm f hl
        refine ⟨fnd, ?_, hfk⟩
        rw [hn₁]
        exact getElem?_append_of_some _ _ _ _ hfnd
      obtain ⟨Δ₂, Δe₂, hn₂, he₂, hs₂, hc₂, ht₂, hn₂e⟩ :=
        ih frontier g₁ g' hf₁ hsearch₁ hr
      refine ⟨Δ₁ ++ Δ₂, Δe₁ ++ Δe₂, ?_, ?_, ?_, ?_, ?_, ?_⟩
      · rw [hn₂, hn₁, List.append_assoc]
      · rw [he₂, he₁, List.append_assoc]
      · rw [hs₂, hs₁]
      · intro q
        rw [List.filter_append, List.length_append, hc₁ q, hc₂ q]
        by_cases hq : (Nat.repr count ++ "_output.nt") = q <;>
          (simp [hq]; try omega)
      · intro nd hnd pth fm hop
        rcases List.mem_append.mp hnd with h | h
        · exact ht₁ nd h pth fm hop
        · exact ht₂ nd h pth fm hop
      · intro e he
        rcases List.mem_append.mp he with h | h
        · obtain ⟨nd, hnd, hk⟩ := hn₁e e h
          refine ⟨nd, ?_, hk⟩
          rw [← List.append_assoc]
          exact getElem?_append_of_some _ _ _ _ hnd
        · obtain ⟨nd, hnd, hk⟩ := hn₂e e h
          rw [hn₁] at hnd
          refine ⟨nd, ?_, hk⟩
          rw [← List.append_assoc]
          exact hnd
    | errored g₁ e =>
      rw [hpjo] at hr
      rw [foldl_thenOk_stuck _ t _ (by intro g₂ hc; cases hc)] at hr
      cases hr
    | panicked m =>
      rw [hpjo] at hr
      rw [foldl_thenOk_stuck _ t _ (by intro g₂ hc; cases hc)] at hr
      cases hr

/-- C8 shape of a successful `add_join_related_ops`: one sink per
parent-referencing object map, all targeting `<count>_output.nt`. -/
theorem aj_c8 (search_tm_plan_map : List (String × (Nat × TriplesMap × Nat)))
    (sm : SubjectMap) (prefix_id : String) (count : Nat) :
    ∀ (poms : List (Nat × PredicateObjectMap)) (frontier : Nat) (g g' : PGraph),
    ProjAt g frontier → SearchOk search_tm_plan_map g →
    add_join_related_ops poms search_tm_plan_map sm prefix_id g frontier count =
      TResult.ok g' →
    ∃ (Δ : List PlanNode) (Δe : List PEdge),
      g'.nodes = g.nodes ++ Δ ∧ g'.edges = g.edges ++ Δe ∧
      g'.sources = g.sources ∧
      (∀ q, (Δ.filter (isTargetWithPath q)).length =
        if (Nat.repr count ++ "_output.nt") = q
        then (poms.map (fun p => p.2.object_maps.length)).sum else 0) ∧
      (∀ nd ∈ Δ, ∀ pth fm, nd.operator = Operator.TargetOp pth fm →
        fm = DataFormat.NT ∧ pth = Nat.repr count ++ "_output.nt") ∧
      (∀ e ∈ Δe, ∃ nd, (g.nodes ++ Δ)[e.src]? = some nd ∧
        nd.operator.kind ≠ OpKind.target) := by
  intro poms
  induction poms with
  | nil =>
    intro frontier g g' _ _ hr
    simp only [add_join_related_ops, List.foldl_nil] at hr
    cases hr
    refine ⟨[], [], by simp, by simp, rfl, ?_, ?_, ?_⟩
    · intro q
      by_cases hq : (Nat.repr count ++ "_output.nt") = q <;> simp [hq]
    · intro nd hnd
      cases hnd
    · intro e he
      cases he
  | cons p t ih =>
    intro frontier g g' hf hsearch hr
    simp only [add_join_related_ops, List.foldl_cons] at hr
    have hhead : (TResult.ok g).thenOk (fun g₀ =>
        p.2.object_maps.enum.foldl
          (fun acc₂ q =>
            acc₂.thenOk (fun g₁ =>
              process_join_om search_tm_plan_map sm prefix_id count p.1
                p.2.predicate_maps q.1 q.2 frontier g₁))
          (TResult.ok g₀)) =
        p.2.object_maps.enum.foldl
          (fun acc₂ q =>
            acc₂.thenOk (fun g₁ =>
              process_join_om search_tm_plan_map sm prefix_id count p.1
                p.2.predicate_maps q.1 q.2 frontier g₁))
          (TResult.ok g) := rfl
    rw [hhead] at hr
    cases hinner : p.2.object_maps.enum.foldl
        (fun acc₂ q =>
          acc₂.thenOk (fun g₁ =>
            process_join_om search_tm_plan_map sm prefix_id count p.1
              p.2.predicate_maps q.1 q.2 frontier g₁))
        (TResult.ok g) with
    | ok g₁ =>
      rw [hinner] at hr
      obtain ⟨Δ₁, Δe₁, hn₁, he₁, hs₁, hc₁, ht₁, hn₁e⟩ :=
        ajOms_c8 search_tm_plan_map sm prefix_id count p.1 p.2.predicate_maps
          p.2.object_maps.enum frontier g g₁ hf hsearch hinner
      have hf₁ : ProjAt g₁ frontier := by
        obtain ⟨fnd, hfnd, hfk⟩ := hf
        refine ⟨fnd, ?_, hfk⟩
        rw [hn₁]
        exact getElem?_append_of_some _ _ _ _ hfnd
      have hsearch₁ : SearchOk search_tm_plan_map g₁ := by
        intro k idx ptm f hl
        obtain ⟨fnd, hfnd, hfk⟩ := hsearch k idx ptm f hl
        refine ⟨fnd, ?_, hfk⟩
        rw [hn₁]
        exact getElem?_append_of_some _ _ _ _ hfnd
      have hr' : add_join_related_ops t search_tm_plan_map sm prefix_id g₁
          frontier count = TResult.ok g' := hr
      obtain ⟨Δ₂, Δe₂, hn₂, he₂, hs₂, hc₂, ht₂, hn₂e⟩ :=
        ih frontier g₁ g' hf₁ hsearch₁ hr'
      refine ⟨Δ₁ ++ Δ₂, Δe₁ ++ Δe₂, ?_, ?_, ?_, ?_, ?_, ?_⟩
      · rw [hn₂, hn₁, List.append_assoc]
      · rw [he₂, he₁, List.append_assoc]
      · rw [hs₂, hs₁]
      · intro q
        rw [List.filter_append, List.length_append, hc₁ q, hc₂ q]
        by_cases hq : (Nat.repr count ++ "_output.nt") = q <;>
          (simp [hq, List.enum_length]; try omega)
      · intro nd hnd pth fm hop
        rcases List.mem_append.mp hnd with h | h
        · exact ht₁ nd h pth fm hop
        · exact ht₂ nd h pth fm hop
      · intro e he
        rcases List.mem_append.mp he with h | h
        · obtain ⟨nd, hnd, hk⟩ := hn₁e e h
          refine ⟨nd, ?_, hk⟩
          rw [← List.append_assoc]
          exact getElem?_append_of_some _ _ _ _ hnd
        · obtain ⟨nd, hnd, hk⟩ := hn₂e e h
          rw [hn₁] at hnd
          refine ⟨nd, ?_, hk⟩
          rw [← List.append_assoc]
          exact hnd
    | errored g₁ e =>
      rw [hinner] at hr
      rw [foldl_thenOk_stuck _ t _ (by intro g₂ hc; cases hc)] at hr
      cases hr
    | panicked m =>
      rw [hinner] at hr
      rw [foldl_thenOk_stuck _ t _ (by intro g₂ hc; cases hc)] at hr
      cases hr

/-- C8 shape of one second-pass step: the unit at sequence index `count` adds
exactly `tmBranchCount` fresh sink nodes, all targeting `<count>_output.nt` in
N-Triples format, and every added edge leaves a non-target node. -/
theorem spstep_c8 (search_tm_plan_map : List (String × (Nat × TriplesMap × Nat)))
    (count : Nat) (tm : TriplesMap) (frontier : Nat) (g g' : PGraph)
    (hf : ProjAt g frontier) (hsearch : SearchOk search_tm_plan_map g)
    (hr : secondPassStep search_tm_plan_map count tm frontier g = TResult.ok g') :
    ∃ (Δ : List PlanNode) (Δe : List PEdge),
      g'.nodes = g.nodes ++ Δ ∧ g'.edges = g.edges ++ Δe ∧
      g'.sources = g.sources ∧
      (∀ q, (Δ.filter (isTargetWithPath q)).length =
        if (Nat.repr count ++ "_output.nt") = q then tmBranchCount tm else 0) ∧
      (∀ nd ∈ Δ, ∀ pth fm, nd.operator = Operator.TargetOp pth fm →
        fm = DataFormat.NT ∧ pth = Nat.repr count ++ "_output.nt") ∧
      (∀ e ∈ Δe, ∃ nd, (g.nodes ++ Δ)[e.src]? = some nd ∧
        nd.operator.kind ≠ OpKind.target) := by
  simp only [secondPassStep] at hr
  by_cases h2 : (partition_pom_join_nonjoin tm.po_maps).2.isEmpty
  · rw [if_pos h2] at hr
    have hred : (TResult.ok g).thenOk (fun g₁ =>
        if (partition_pom_join_nonjoin tm.po_maps).1.isEmpty then TResult.ok g₁
        else add_join_related_ops (partition_pom_join_nonjoin tm.po_maps).1
          search_tm_plan_map tm.subject_map ("tm_" ++ Nat.repr count) g₁
          frontier count) =
        (if (partition_pom_join_nonjoin tm.po_maps).1.isEmpty then TResult.ok g
        else add_join_related_ops (partition_pom_join_nonjoin tm.po_maps).1
          search_tm_plan_map tm.subject_map ("tm_" ++ Nat.repr count) g
          frontier count) := rfl
    rw [hred] at hr
    by_cases h1 : (partition_pom_join_nonjoin tm.po_maps).1.isEmpty
    · rw [if_pos h1] at hr
      cases hr
      refine ⟨[], [], by simp, by simp, rfl, ?_, ?_, ?_⟩
      · intro q
        have hp1 : (partition_pom_join_nonjoin tm.po_maps).1 = [] :=
          List.isEmpty_iff.mp h1
        by_cases hq : (Nat.repr count ++ "_output.nt") = q <;>
          simp [hq, tmBranchCount, h2, hp1]
      · intro nd hnd
        cases hnd
      · intro e he
        cases he
    · rw [if_neg h1] at hr
      obtain ⟨Δ, Δe, hn, he, hs, hc, ht, hne⟩ :=
        aj_c8 search_tm_plan_map tm.subject_map ("tm_" ++ Nat.repr count) count
          (partition_pom_join_nonjoin tm.po_maps).1 frontier g g' hf hsearch hr
      refine ⟨Δ, Δe, hn, he, hs, ?_, ht, hne⟩
      intro q
      rw [hc q]
      by_cases hq : (Nat.repr count ++ "_output.nt") = q <;>
        simp [hq, tmBranchCount, h2]
  · rw [if_neg h2] at hr
    cases hanj : add_non_join_related_ops
        (partition_pom_join_nonjoin tm.po_maps).2 tm.subject_map
        ("tm_" ++ Nat.repr count) g frontier count with
    | ok g₁ =>
      rw [hanj] at hr
      have hred : (TResult.ok g₁).thenOk (fun g₂ =>
          if (partition_pom_join_nonjoin tm.po_maps).1.isEmpty then TResult.ok g₂
          else add_join_related_ops (partition_pom_join_nonjoin tm.po_maps).1
            search_tm_plan_map tm.subject_map ("tm_" ++ Nat.repr count) g₂
            frontier count) =
          (if (partition_pom_join_nonjoin tm.po_maps).1.isEmpty then TResult.ok g₁
          else add_join_related_ops (partition_pom_join_nonjoin tm.po_maps).1
            search_tm_plan_map tm.subject_map ("tm_" ++ Nat.repr count) g₁
            frontier count) := rfl
      rw [hred] at hr
      obtain ⟨Δ₁, Δe₁, hn₁, he₁, hs₁, hc₁, ht₁, hn₁e⟩ :=
        anj_c8 _ _ _ _ _ _ _ hf hanj
      have hf₁ : ProjAt g₁ frontier := by
        obtain ⟨fnd, hfnd, hfk⟩ := hf
        refine ⟨fnd, ?_, hfk⟩
        rw [hn₁]
        exact getElem?_append_of_some _ _ _ _ hfnd
      have hsearch₁ : SearchOk search_tm_plan_map g₁ := by
        intro k idx ptm f hl
        obtain ⟨fnd, hfnd, hfk⟩ := hsearch k idx ptm f hl
        refine ⟨fnd, ?_, hfk⟩
        rw [hn₁]
        exact getElem?_append_of_some _ _ _ _ hfnd
      by_cases h1 : (partition_pom_join_nonjoin tm.po_maps).1.isEmpty
      · rw [if_pos h1] at hr
        cases hr
        refine ⟨Δ₁, Δe₁, hn₁, he₁, hs₁, ?_, ht₁, hn₁e⟩
        intro q
        rw [hc₁ q]
        have hp1 : (partition_pom_join_nonjoin tm.po_maps).1 = [] :=
          List.isEmpty_iff.mp h1
        by_cases hq : (Nat.repr count ++ "_output.nt") = q <;>
          simp [hq, tmBranchCount, h2, hp1]
      · rw [if_neg h1] at hr
        obtain ⟨Δ₂, Δe₂, hn₂, he₂, hs₂, hc₂, ht₂, hn₂e⟩ :=
          aj_c8 search_tm_plan_map tm.subject_map ("tm_" ++ Nat.repr count)
            count (partition_pom_join_nonjoin tm.po_maps).1 frontier g₁ g'
            hf₁ hsearch₁ hr
        refine ⟨Δ₁ ++ Δ₂, Δe₁ ++ Δe₂, ?_, ?_, ?_, ?_, ?_, ?_⟩
        · rw [hn₂, hn₁, List.append_assoc]
        · rw [he₂, he₁, List.append_assoc]
        · rw [hs₂, hs₁]
        · intro q
          rw [List.filter_append, List.length_append, hc₁ q, hc₂ q]
          by_cases hq : (Nat.repr count ++ "_output.nt") = q <;>
            (simp [hq, tmBranchCount, h2]; try omega)
        · intro nd hnd pth fm hop
          rcases List.mem_append.mp hnd with h | h
          · exact ht₁ nd h pth fm hop
          · exact ht₂ nd h pth fm hop
        · intro e he
          rcases List.mem_append.mp he with h | h
          · obtain ⟨nd, hnd, hk⟩ := hn₁e e h
            refine ⟨nd, ?_, hk⟩
            rw [← List.append_assoc]
            exact getElem?_append_of_some _ _ _ _ hnd
          · obtain ⟨nd, hnd, hk⟩ := hn₂e e h
            rw [hn₁] at hnd
            refine ⟨nd, ?_, hk⟩
            rw [← List.append_assoc]
            exact hnd
    | errored g₁ e =>
      rw [hanj] at hr
      cases hr
    | panicked m =>
      rw [hanj] at hr
      cases hr

/-- Number of target nodes with path `q` a second-pass run over the given
pairs contributes, starting at sequence index `count`. -/
def targetContrib : List (TriplesMap × Nat) → Nat → String → Nat
  | [], _, _ => 0
  | (tm, _) :: rest, count, q =>
    (if (Nat.repr count ++ "_output.nt") = q then tmBranchCount tm else 0) +
      targetContrib rest (count + 1) q

/-- The sink path `<index>_output.nt` determines the sequence index. -/
theorem output_path_inj (a b : Nat)
    (h : Nat.repr a ++ "_output.nt" = Nat.repr b ++ "_output.nt") : a = b := by
  apply repr_inj
  have hdata := congrArg String.data h
  simp only [String.data_append] at hdata
  exact String.ext (List.append_cancel_right hdata)

theorem targetContrib_lt : ∀ (pairs : List (TriplesMap × Nat)) (c i : Nat),
    i < c → targetContrib pairs c (Nat.repr i ++ "_output.nt") = 0 := by
  intro pairs
  induction pairs with
  | nil => intro c i _; rfl
  | cons p rest ih =>
    intro c i hlt
    obtain ⟨tm, f⟩ := p
    simp only [targetContrib]
    have hne : ¬ (Nat.repr c ++ "_output.nt") = (Nat.repr i ++ "_output.nt") := by
      intro h
      have := output_path_inj c i h
      omega
    rw [if_neg hne, ih (c + 1) i (by omega)]

/-- `targetContrib` of the first-pass pairs at path `<c+i>_output.nt` is the
branch count of the `i`-th triples map. -/
theorem targetContrib_fpPairs : ∀ (tms : List TriplesMap) (n c i : Nat)
    (tm : TriplesMap), tms[i]? = some tm →
    targetContrib (fpPairs tms n) c (Nat.repr (c + i) ++ "_output.nt") =
      tmBranchCount tm := by
  intro tms
  induction tms with
  | nil =>
    intro n c i tm h
    simp at h
  | cons hd rest ih =>
    intro n c i tm h
    cases i with
    | zero =>
      have htm : hd = tm := by simpa using h
      subst htm
      simp only [fpPairs, targetContrib]
      rw [if_pos (by rw [Nat.add_zero])]
      have hz := targetContrib_lt (fpPairs rest (n + 2)) (c + 1) (c + 0)
        (by omega)
      rw [hz]
      omega
    | succ j =>
      have h' : rest[j]? = some tm := by simpa using h
      simp only [fpPairs, targetContrib]
      have hne : ¬ (Nat.repr c ++ "_output.nt") =
          (Nat.repr (c + (j + 1)) ++ "_output.nt") := by
        intro hq
        have := output_path_inj _ _ hq
        omega
      rw [if_neg hne]
      have hrec := ih (n + 2) (c + 1) j tm h'
      have harith : c + 1 + j = c + (j + 1) := by omega
      rw [harith] at hrec
      rw [hrec]
      omega

/-- C8 shape of a successful second pass: per path `q` the run appends
`targetContrib` target nodes, every appended target is an N-Triples file
`<index>_output.nt` for the index of one of the processed units, and every
appended edge leaves a non-target node. -/
theorem spGo_c8 (search_tm_plan_map : List (String × (Nat × TriplesMap × Nat))) :
    ∀ (pairs : List (TriplesMap × Nat)) (count : Nat) (g g' : PGraph),
    (∀ p ∈ pairs, ProjAt g p.2) → SearchOk search_tm_plan_map g →
    secondPassGo search_tm_plan_map pairs count g = TResult.ok g' →
    ∃ (Δ : List PlanNode) (Δe : List PEdge),
      g'.nodes = g.nodes ++ Δ ∧ g'.edges = g.edges ++ Δe ∧
      g'.sources = g.sources ∧
      (∀ q, (Δ.filter (isTargetWithPath q)).length = targetContrib pairs count q) ∧
      (∀ nd ∈ Δ, ∀ pth fm, nd.operator = Operator.TargetOp pth fm →
        fm = DataFormat.NT ∧
        ∃ j, j < pairs.length ∧ pth = Nat.repr (count + j) ++ "_output.nt") ∧
      (∀ e ∈ Δe, ∃ nd, (g.nodes ++ Δ)[e.src]? = some nd ∧
        nd.operator.kind ≠ OpKind.target) := by
  intro pairs
  induction pairs with
  | nil =>
    intro count g g' _ _ hr
    simp only [secondPassGo] at hr
    cases hr
    refine ⟨[], [], by simp, by simp, rfl, ?_, ?_, ?_⟩
    · intro q; rfl
    · intro nd hnd; cases hnd
    · intro e he; cases he
  | cons p rest ih =>
    intro count g g' hproj hsearch hr
    obtain ⟨tm, f⟩ := p
    simp only [secondPassGo] at hr
    cases hstep : secondPassStep search_tm_plan_map count tm f g with
    | ok g₁ =>
      simp only [hstep] at hr
      obtain ⟨Δ₁, Δe₁, hn₁, he₁, hs₁, hc₁, ht₁, hne₁⟩ :=
        spstep_c8 search_tm_plan_map count tm f g g₁
          (hproj (tm, f) (List.mem_cons_self _ _)) hsearch hstep
      have hproj₁ : ∀ p ∈ rest, ProjAt g₁ p.2 := by
        intro p hp
        obtain ⟨nd, hnd, hk⟩ := hproj p (List.mem_cons_of_mem _ hp)
        exact ⟨nd, by rw [hn₁]; exact getElem?_append_of_some _ _ _ _ hnd, hk⟩
      have hsearch₁ : SearchOk search_tm_plan_map g₁ := by
        intro k idx ptm f' hl
        obtain ⟨nd, hnd, hk⟩ := hsearch k idx ptm f' hl
        exact ⟨nd, by rw [hn₁]; exact getElem?_append_of_some _ _ _ _ hnd, hk⟩
      obtain ⟨Δ₂, Δe₂, hn₂, he₂, hs₂, hc₂, ht₂, hne₂⟩ :=
        ih (count + 1) g₁ g' hproj₁ hsearch₁ hr
      refine ⟨Δ₁ ++ Δ₂, Δe₁ ++ Δe₂, ?_, ?_, ?_, ?_, ?_, ?_⟩
      · rw [hn₂, hn₁, List.append_assoc]
      · rw [he₂, he₁, List.append_assoc]
      · rw [hs₂, hs₁]
      · intro q
        rw [List.filter_append, List.length_append, hc₁ q, hc₂ q]
        simp [targetContrib]
      · intro nd hnd pth fm hop
        rcases List.mem_append.mp hnd with h | h
        · obtain ⟨hfm, hpth⟩ := ht₁ nd h pth fm hop
          exact ⟨hfm, 0, by simp, by simpa using hpth⟩
        · obtain ⟨hfm, j, hj, hpth⟩ := ht₂ nd h pth fm hop
          refine ⟨hfm, j + 1, by simp only [List.length_cons]; omega, ?_⟩
          rw [hpth]
          have harith : count + 1 + j = count + (j + 1) := by omega
          rw [harith]
      · intro e he
        rcases List.mem_append.mp he with h | h
        · obtain ⟨nd, hnd, hk⟩ := hne₁ e h
          refine ⟨nd, ?_, hk⟩
          rw [← List.append_assoc]
          exact getElem?_append_of_some _ _ _ _ hnd
        · obtain ⟨nd, hnd, hk⟩ := hne₂ e h
          rw [hn₁] at hnd
          refine ⟨nd, ?_, hk⟩
          rw [← List.append_assoc]
          exact hnd
    | errored g₁ e =>
      simp only [hstep] at hr
      cases hr
    | panicked m =>
      simp only [hstep] at hr
      cases hr

theorem isTargetWithPath_kind (q : String) (nd : PlanNode)
    (h : isTargetWithPath q nd = true) : nd.operator.kind = OpKind.target := by
  cases hop : nd.operator <;> simp_all [isTargetWithPath, Operator.kind]

/-- The first-pass graph contains no target nodes. -/
theorem fpNodes_not_target : ∀ (tms : List TriplesMap) (n : Nat) (nd : PlanNode),
    nd ∈ fpNodes tms n → nd.operator.kind ≠ OpKind.target := by
  intro tms
  induction tms with
  | nil => intro n nd h; cases h
  | cons tm rest ih =>
    intro n nd h
    simp only [fpNodes] at h
    rcases List.mem_cons.mp h with h | h
    · subst h
      simp [Operator.kind]
    · rcases List.mem_cons.mp h with h | h
      · subst h
        simp [Operator.kind, translate_projection_op_eq]
      · exact ih (n + 2) nd h

theorem fpNodes_filter_target (tms : List TriplesMap) (n : Nat) (q : String) :
    (fpNodes tms n).filter (isTargetWithPath q) = [] := by
  rw [List.filter_eq_nil_iff]
  intro nd hnd hq
  exact fpNodes_not_target tms n nd hnd (isTargetWithPath_kind q nd hq)

/-- Every frontier the first pass records indexes a projection node. -/
theorem fpPairs_projAt : ∀ (tms : List TriplesMap) (pre : List PlanNode)
    (E : List PEdge) (S : List Nat) (p : TriplesMap × Nat),
    p ∈ fpPairs tms pre.length →
    ProjAt ⟨pre ++ fpNodes tms pre.length, E, S⟩ p.2 := by
  intro tms
  induction tms with
  | nil => intro pre E S p hp; cases hp
  | cons tm rest ih =>
    intro pre E S p hp
    simp only [fpPairs] at hp
    simp only [fpNodes]
    rcases List.mem_cons.mp hp with hp | hp
    · subst hp
      exact ⟨⟨"Projection" ++ "_" ++ Nat.repr (pre.length + 1),
          translate_projection_op tm⟩,
        getElem?_append_one pre _ _ _,
        by simp [translate_projection_op_eq, Operator.kind]⟩
    · have hlen : (pre ++
          [(⟨"Source_" ++ Nat.repr pre.length,
              Operator.SourceOp tm.logical_source⟩ : PlanNode),
           ⟨"Projection" ++ "_" ++ Nat.repr (pre.length + 1),
              translate_projection_op tm⟩]).length = pre.length + 2 := by
        simp
      have h2 := ih (pre ++
          [⟨"Source_" ++ Nat.repr pre.length,
              Operator.SourceOp tm.logical_source⟩,
           ⟨"Projection" ++ "_" ++ Nat.repr (pre.length + 1),
              translate_projection_op tm⟩]) E S p (by rw [hlen]; exact hp)
      rw [hlen] at h2
      rw [List.append_assoc] at h2
      simpa using h2

/-- Every first-pass edge leaves a (non-target) source node. -/
theorem fpEdges_src : ∀ (tms : List TriplesMap) (pre : List PlanNode)
    (e : PEdge), e ∈ fpEdges tms pre.length →
    ∃ nd, (pre ++ fpNodes tms pre.length)[e.src]? = some nd ∧
      nd.operator.kind ≠ OpKind.target := by
  intro tms
  induction tms with
  | nil => intro pre e he; cases he
  | cons tm rest ih =>
    intro pre e he
    simp only [fpEdges, mappingTupleEdge] at he
    simp only [fpNodes]
    rcases List.mem_cons.mp he with he | he
    · subst he
      exact ⟨⟨"Source_" ++ Nat.repr pre.length,
          Operator.SourceOp tm.logical_source⟩,
        getElem?_append_zero pre _ _, by simp [Operator.kind]⟩
    · have hlen : (pre ++
          [(⟨"Source_" ++ Nat.repr pre.length,
              Operator.SourceOp tm.logical_source⟩ : PlanNode),
           ⟨"Projection" ++ "_" ++ Nat.repr (pre.length + 1),
              translate_projection_op tm⟩]).length = pre.length + 2 := by
        simp
      have h2 := ih (pre ++
          [⟨"Source_" ++ Nat.repr pre.length,
              Operator.SourceOp tm.logical_source⟩,
           ⟨"Projection" ++ "_" ++ Nat.repr (pre.length + 1),
              translate_projection_op tm⟩]) e (by rw [hlen]; exact he)
      rw [hlen] at h2
      rw [List.append_assoc] at h2
      simpa using h2

end C8Lemmas

/-- C8: when translation succeeds (first pass `Ok`, second pass `ok`), the
unit at document sequence index `i` contributes exactly one target (sink) node
per branch — one for its non-join POMs (if any) plus one per parent-referencing
object map — every one of them with file path `<i>_output.nt`; every target
node of the plan is an N-Triples file target whose path is `<i>_output.nt` for
some unit index `i`; and no edge leaves a target node, so each branch ends in
its own sink. -/
theorem translate_sinks_per_branch (doc : Document) (g₀ : PGraph)
    (pairs : List (TriplesMap × Nat)) (g : PGraph)
    (h₁ : firstPassGo doc.triples_maps PGraph.empty [] = Except.ok (g₀, pairs))
    (h₂ : secondPassGo (mkSearchMap pairs) pairs 0 g₀ = TResult.ok g) :
    translate_to_algebra doc = TransResult.ok g ∧
    (∀ i tm, doc.triples_maps[i]? = some tm →
      countTargetsPath g (Nat.repr i ++ "_output.nt") = tmBranchCount tm) ∧
    (∀ nd ∈ g.nodes, ∀ pth fm, nd.operator = Operator.TargetOp pth fm →
      fm = DataFormat.NT ∧ ∃ i tm, doc.triples_maps[i]? = some tm ∧
        pth = Nat.repr i ++ "_output.nt") ∧
    EdgeSrcOk g := by
  have hfp := firstPassGo_eq doc.triples_maps PGraph.empty []
  simp only [PGraph.empty, List.length_nil, List.nil_append] at hfp
  simp only [PGraph.empty] at h₁
  rw [h₁] at hfp
  have hpair := Except.ok.inj hfp
  have hg₀ : g₀ = ⟨fpNodes doc.triples_maps 0, fpEdges doc.triples_maps 0,
      fpSources doc.triples_maps 0⟩ := congrArg Prod.fst hpair
  have hpairs : pairs = fpPairs doc.triples_maps 0 := congrArg Prod.snd hpair
  subst hg₀
  subst hpairs
  have hproj : ∀ p ∈ fpPairs doc.triples_maps 0,
      ProjAt ⟨fpNodes doc.triples_maps 0, fpEdges doc.triples_maps 0,
        fpSources doc.triples_maps 0⟩ p.2 := by
    intro p hp
    have := fpPairs_projAt doc.triples_maps [] (fpEdges doc.triples_maps 0)
      (fpSources doc.triples_maps 0) p (by simpa using hp)
    simpa using this
  have hsearch : SearchOk (mkSearchMap (fpPairs doc.triples_maps 0))
      ⟨fpNodes doc.triples_maps 0, fpEdges doc.triples_maps 0,
        fpSources doc.triples_maps 0⟩ := by
    intro k idx ptm f hl
    exact hproj (ptm, f) (mkSearchMap_lookup_frontier _ _ _ _ _ hl)
  obtain ⟨Δ, Δe, hn, he, hs, hc, ht, hne⟩ :=
    spGo_c8 (mkSearchMap (fpPairs doc.triples_maps 0))
      (fpPairs doc.triples_maps 0) 0 _ g hproj hsearch h₂
  have hn' : g.nodes = fpNodes doc.triples_maps 0 ++ Δ := hn
  have he' : g.edges = fpEdges doc.triples_maps 0 ++ Δe := he
  have hne' : ∀ e ∈ Δe, ∃ nd,
      (fpNodes doc.triples_maps 0 ++ Δ)[e.src]? = some nd ∧
      nd.operator.kind ≠ OpKind.target := hne
  refine ⟨?_, ?_, ?_, ?_⟩
  · simp only [translate_to_algebra, PGraph.empty, h₁, h₂]
  · intro i tm hi
    have hcq := hc (Nat.repr i ++ "_output.nt")
    have hfil := fpNodes_filter_target doc.triples_maps 0
      (Nat.repr i ++ "_output.nt")
    have hcount : countTargetsPath g (Nat.repr i ++ "_output.nt") =
        targetContrib (fpPairs doc.triples_maps 0) 0
          (Nat.repr i ++ "_output.nt") := by
      simp only [countTargetsPath, hn', List.filter_append, List.length_append,
        hfil, List.length_nil, Nat.zero_add, hcq]
    rw [hcount]
    have hfin := targetContrib_fpPairs doc.triples_maps 0 0 i tm hi
    rwa [Nat.zero_add] at hfin
  · intro nd hnd pth fm hop
    rw [hn'] at hnd
    rcases List.mem_append.mp hnd with h | h
    · exact absurd (by rw [hop]; rfl) (fpNodes_not_target _ _ nd h)
    · obtain ⟨hfm, j, hj, hpth⟩ := ht nd h pth fm hop
      have hj2 : j < doc.triples_maps.length := by
        rw [fpPairs_length] at hj
        exact hj
      refine ⟨hfm, j, doc.triples_maps.get ⟨j, hj2⟩, ?_, ?_⟩
      · exact List.getElem?_eq_getElem hj2
      · rwa [Nat.zero_add] at hpth
  · intro e he₂
    rw [he'] at he₂
    rcases List.mem_append.mp he₂ with h | h
    · obtain ⟨nd, hnd, hk⟩ := fpEdges_src doc.triples_maps [] e (by simpa using h)
      refine ⟨nd, ?_, hk⟩
      rw [hn']
      have hnd' : (fpNodes doc.triples_maps 0)[e.src]? = some nd := by
        simpa using hnd
      exact getElem?_append_of_some _ _ _ _ hnd'
    · obtain ⟨nd, hnd, hk⟩ := hne' e h
      exact ⟨nd, by rw [hn']; exact hnd, hk⟩

/-- Witness for C8 at the concrete two-map document `⟨[tmW1, tmW2]⟩`. -/
theorem translate_sinks_per_branch_witness :
    translate_to_algebra (Document.mk [tmW1, tmW2]) = TransResult.ok gC6w ∧
    (∀ i tm, (Document.mk [tmW1, tmW2]).triples_maps[i]? = some tm →
      countTargetsPath gC6w (Nat.repr i ++ "_output.nt") = tmBranchCount tm) ∧
    (∀ nd ∈ gC6w.nodes, ∀ pth fm, nd.operator = Operator.TargetOp pth fm →
      fm = DataFormat.NT ∧ ∃ i tm,
        (Document.mk [tmW1, tmW2]).triples_maps[i]? = some tm ∧
        pth = Nat.repr i ++ "_output.nt") ∧
    EdgeSrcOk gC6w :=
  translate_sinks_per_branch (Document.mk [tmW1, tmW2])
    ⟨fpNodes [tmW1, tmW2] 0, fpEdges [tmW1, tmW2] 0, fpSources [tmW1, tmW2] 0⟩
    (fpPairs [tmW1, tmW2] 0) gC6w (by rfl) (by decide)

section NodeIdLemmas

/-- One graph-growth operation issued through some (arbitrarily derived)
handle: the frontier argument models the handle the operation is called on. -/
inductive BuildOp where
  | source (cfg : String)
  | apply (op : Operator) ( node_id_prefix : String) (frontier : Option Nat)
  | serialize (template : String) (format : DataFormat) (frontier : Option Nat)
  | sink (path : String) (format : DataFormat) (frontier : Option Nat)

/-- Run one operation against the shared graph; a failing operation returns
its error before mutating, leaving the graph unchanged. -/
def runOp (g : PGraph) : BuildOp → PGraph
  | BuildOp.source cfg => (plan_source g cfg).1
  | BuildOp.apply op px f =>
    match plan_apply g f op px with
    | Except.ok (g', _) => g'
    | Except.error _ => g
  | BuildOp.serialize t fm f =>
    match plan_serialize g f t fm with
    | Except.ok (g', _) => g'
    | Except.error _ => g
  | BuildOp.sink p fm f =>
    match plan_sink g f p fm with
    | Except.ok (g', _) => g'
    | Except.error _ => g

/-- Run a sequence of operations starting from `Plan::new()`'s empty graph. -/
def runOps (ops : List BuildOp) : PGraph := ops.foldl runOp PGraph.empty

/-- Every node's id is some prefix followed by an underscore and the decimal
rendering of its own index. -/
def GoodIds (nodes : List PlanNode) : Prop :=
  ∀ k nd, nodes[k]? = some nd → ∃ px, nd.id = px ++ "_" ++ Nat.repr k

theorem goodIds_append (nodes : List PlanNode) (h : GoodIds nodes) (px : String)
    (nd : PlanNode) (hid : nd.id = px ++ "_" ++ Nat.repr nodes.length) :
    GoodIds (nodes ++ [nd]) := by
  intro k x hk
  by_cases hlt : k < nodes.length
  · rw [List.getElem?_append, if_pos hlt] at hk
    exact h k x hk
  · have hk' : k < nodes.length + 1 := by
      have := List.getElem?_eq_some.mp hk
      simpa using this.1
    have hke : k = nodes.length := by omega
    subst hke
    rw [List.getElem?_concat_length] at hk
    cases hk
    exact ⟨px, hid⟩

theorem runOp_goodIds (g : PGraph) (h : GoodIds g.nodes) (op : BuildOp) :
    GoodIds (runOp g op).nodes := by
  cases op with
  | source cfg =>
    refine goodIds_append g.nodes h "Source" _ ?_
    show ("Source_" : String) ++ Nat.repr g.nodes.length = _
    rfl
  | apply op px f =>
    simp only [runOp]
    cases happ : plan_apply g f op px with
    | error e => exact h
    | ok r =>
      obtain ⟨hn, _, _, _⟩ := plan_apply_ok g f op px r.1 r.2 (by rw [happ])
      rw [hn]
      exact goodIds_append g.nodes h px _ rfl
  | serialize t fm f =>
    simp only [runOp]
    cases hser : plan_serialize g f t fm with
    | error e => exact h
    | ok r =>
      obtain ⟨hn, _, _, _⟩ := plan_serialize_ok g f t fm r.1 r.2 (by rw [hser])
      rw [hn]
      refine goodIds_append g.nodes h "Serialize" _ ?_
      show ("Serialize_" : String) ++ Nat.repr g.nodes.length = _
      rfl
  | sink p fm f =>
    simp only [runOp]
    cases f with
    | none => exact h
    | some prev =>
      rw [plan_sink_some_ok]
      refine goodIds_append g.nodes h "Sink" _ ?_
      show ("Sink_" : String) ++ Nat.repr g.nodes.length = _
      rfl

theorem goodIds_nodup (nodes : List PlanNode) (h : GoodIds nodes) :
    (nodes.map (fun nd => nd.id)).Nodup := by
  rw [List.nodup_iff_getElem?_ne_getElem?]
  intro i j hij hj
  rw [List.length_map] at hj
  intro heq
  have hi' : (nodes.map (fun nd => nd.id))[i]? = some nodes[i].id := by
    rw [List.getElem?_map, List.getElem?_eq_getElem (by omega)]
    rfl
  have hj' : (nodes.map (fun nd => nd.id))[j]? = some nodes[j].id := by
    rw [List.getElem?_map, List.getElem?_eq_getElem hj]
    rfl
  rw [hi', hj'] at heq
  have hi2 : i < nodes.length := by omega
  have hij_id : (nodes.get ⟨i, hi2⟩).id = (nodes.get ⟨j, hj⟩).id :=
    Option.some.inj heq
  obtain ⟨p₁, hp₁⟩ := h i (nodes.get ⟨i, hi2⟩) (List.getElem?_eq_getElem hi2)
  obtain ⟨p₂, hp₂⟩ := h j (nodes.get ⟨j, hj⟩) (List.getElem?_eq_getElem hj)
  have : i = j := id_suffix_inj p₁ p₂ i j (by rw [← hp₁, ← hp₂, hij_id])
  omega

end NodeIdLemmas

/-- C10: starting from `Plan::new()`, after any sequence of
source/apply/serialize/sink operations through any derived handles, the node
ids in the shared graph are pairwise distinct: each operation names its node
`<prefix>_<n>` with `n` the node count at insertion time. -/
theorem plan_node_ids_distinct (ops : List BuildOp) :
    ((runOps ops).nodes.map (fun nd => nd.id)).Nodup := by
  have key : ∀ (l : List BuildOp) (g : PGraph), GoodIds g.nodes →
      GoodIds (l.foldl runOp g).nodes := by
    intro l
    induction l with
    | nil => intro g hg; exact hg
    | cons op rest ih =>
      intro g hg
      exact ih (runOp g op) (runOp_goodIds g hg op)
  refine goodIds_nodup _ (key ops PGraph.empty ?_)
  intro k nd hk
  simp [PGraph.empty] at hk

theorem serializer_template_matches_extend_names_witness :
    translate_extend_pairs "tm_0" sm0 [(0, pom0)] = Except.ok pairs0 ∧
    (extract_serializer_template [(0, pom0)] "tm_0" =
        strConcat (serTemplateLines "tm_0" [(0, pom0)]) ∧
      (∀ k, k ∈ pairs0.map Prod.fst ↔ k ∈ extendKeyNames "tm_0" [(0, pom0)])) :=
  ⟨rfl,
   serializer_template_matches_extend_names "tm_0" sm0 [(0, pom0)] pairs0 rfl⟩
